import Mathlib

/-!
Verification of the DIY-ECG pipeline (Python sources `arduino_q_bridge_rpc.py`,
`data_stream.py`, `main.py`) against its natural-language specification.

Modelling conventions (shallow embedding):
* wire bytes are `Nat` (each in `0..255` where the checks rely on it);
* Python `float` values are modelled as exact rationals `ℚ`;
* Python's banker's rounding `round` is modelled by `pyRound`;
* Python lists are Lean `List`s; `collections.deque` front is the list head;
* all functions are total, mirroring the fact that the decoder and stream
  code never raise on malformed data.
-/

set_option maxRecDepth 4000

namespace ECG

/-! ## Frame decoder (`arduino_q_bridge_rpc.py`) -/

def CRC_POLY : Nat := 0xA001

def MAX_SAMPLES : Nat := 255

/-- Eight LSB-first shift rounds of CRC-16/IBM (the inner `for _ in range(8)`
loop of `crc16_ibm`). -/
def crc16_shift : Nat → Nat → Nat
  | 0, crc => crc
  | n + 1, crc => crc16_shift n (if crc &&& 1 = 1 then (crc >>> 1) ^^^ CRC_POLY else crc >>> 1)

/-- One byte of `crc16_ibm`: xor the byte into the register, then shift 8 times. -/
def crcStep (crc b : Nat) : Nat := crc16_shift 8 (crc ^^^ b)

/-- `crc16_ibm(data)`: CRC-16/IBM, polynomial 0xA001, initial value 0. -/
def crc16_ibm (data : List Nat) : Nat := (data.foldl crcStep 0) &&& 0xFFFF

/-- `buf[0] == 0x21 and len(buf) > 1` strips the leading overflow marker. -/
def stripOverflow (buf : List Nat) : List Nat :=
  if buf.headD 0 = 0x21 ∧ 1 < buf.length then buf.tail else buf

/-- The received CRC: `buf[-2] | (buf[-1] << 8)`. -/
def crcRecv (buf : List Nat) : Nat :=
  buf.getD (buf.length - 2) 0 ||| (buf.getD (buf.length - 1) 0 <<< 8)

/-- `struct.unpack_from("<I", buf, 1)`: little-endian 32-bit `t0`. -/
def readT0 (buf : List Nat) : Nat :=
  buf.getD 1 0 + 256 * buf.getD 2 0 + 65536 * buf.getD 3 0 + 16777216 * buf.getD 4 0

/-- The entry loop of `_parse_frame_bytes`: reads `count` entries of
(little-endian `uint16` sample, `uint8` delta) from `bs`, accumulating the
running timestamp `prev`.  The fallback case never fires under the exact
length check of the caller. -/
def parseEntries : Nat → List Nat → Nat → List Nat × List Nat
  | 0, _, _ => ([], [])
  | c + 1, lo :: hi :: dt :: rest, prev =>
    let sample := lo + 256 * hi
    let ts := prev + dt
    let p := parseEntries c rest ts
    (sample :: p.1, ts :: p.2)
  | _ + 1, _, _ => ([], [])

/-- The validation chain of `_parse_frame_bytes` after the overflow-marker
strip (the locals `count = buf[0]` and `expected` are inlined). -/
def parse_checked (buf : List Nat) : List Nat × List Nat :=
  if buf.length < 1 + 2 + 2 then ([], [])
  else if buf.headD 0 = 0 ∨ MAX_SAMPLES < buf.headD 0 then ([], [])
  else if buf.length ≠ 1 + 4 + buf.headD 0 * 3 + 2 then ([], [])
  else if crc16_ibm (buf.take (buf.length - 2)) ≠ crcRecv buf then ([], [])
  else parseEntries (buf.headD 0) (buf.drop 5) (readT0 buf)

/-- `_parse_frame_bytes`: empty check, overflow-marker strip, validation
chain, entry parsing. -/
def parse_frame_bytes (buf0 : List Nat) : List Nat × List Nat :=
  if buf0 = [] then ([], []) else parse_checked (stripOverflow buf0)

/-- `_looks_like_hex`: nonempty, even length, all ASCII hex digits. -/
def isHexDigit (b : Nat) : Bool :=
  (48 ≤ b ∧ b ≤ 57) ∨ (97 ≤ b ∧ b ≤ 102) ∨ (65 ≤ b ∧ b ≤ 70)

def looks_like_hex (data : List Nat) : Bool :=
  !data.isEmpty && data.length % 2 = 0 && data.all isHexDigit

/-- Value of one ASCII hex digit. -/
def hexVal (b : Nat) : Nat :=
  if 48 ≤ b ∧ b ≤ 57 then b - 48 else if 97 ≤ b then b - 87 else b - 55

/-- `bytes.fromhex` on an even-length hex string (total on our inputs because
`_looks_like_hex` already guaranteed well-formedness). -/
def hexDecode : List Nat → List Nat
  | h :: l :: rest => (16 * hexVal h + hexVal l) :: hexDecode rest
  | _ => []

/-- `parse_frame` on a byte payload: empty check, optional legacy hex
decoding, then `_parse_frame_bytes`. -/
def parse_frame (resp : List Nat) : List Nat × List Nat :=
  if resp = [] then ([], [])
  else if looks_like_hex resp then parse_frame_bytes (hexDecode resp)
  else parse_frame_bytes resp

/-! ### Spec-side readings of a valid frame (claim C1's wording): sample `i`
is the 16-bit little-endian value of entry `i`, timestamp `i` is `t0` plus
the cumulative sum of the deltas of entries `0..i`. -/

def specSample (buf : List Nat) (i : Nat) : Nat :=
  buf.getD (5 + 3 * i) 0 + 256 * buf.getD (6 + 3 * i) 0

def specDelta (buf : List Nat) (i : Nat) : Nat := buf.getD (7 + 3 * i) 0

def specTimestamp (buf : List Nat) (i : Nat) : Nat :=
  readT0 buf + ((List.range (i + 1)).map (specDelta buf)).sum

/-! ### Decoder lemmas -/

lemma getD_drop (l : List Nat) (m n d : Nat) : (l.drop m).getD n d = l.getD (m + n) d := by
  simp [List.getD, List.getElem?_drop]

lemma parseEntries_length (c : Nat) (bs : List Nat) (prev : Nat) :
    (parseEntries c bs prev).1.length = (parseEntries c bs prev).2.length := by
  induction c generalizing bs prev with
  | zero => simp [parseEntries]
  | succ c ih =>
    match bs with
    | [] => simp [parseEntries]
    | [a] => simp [parseEntries]
    | [a, b] => simp [parseEntries]
    | a :: b :: d :: rest => simpa [parseEntries] using ih rest _

lemma getD_cons3 (a b d : Nat) (l : List Nat) (k : Nat) :
    (a :: b :: d :: l).getD (k + 3) 0 = l.getD k 0 := by
  show (a :: b :: d :: l).getD (k + 1 + 1 + 1) 0 = l.getD k 0
  simp [List.getD_cons_succ]

lemma ts_shift (a b d : Nat) (rest : List Nat) (prev : Nat) (i : Nat) :
    prev + ((List.range (i + 1 + 1)).map (fun j => (a :: b :: d :: rest).getD (3 * j + 2) 0)).sum
      = prev + d + ((List.range (i + 1)).map (fun j => rest.getD (3 * j + 2) 0)).sum := by
  rw [List.range_succ_eq_map (i + 1)]
  simp only [List.map_cons, List.map_map, List.sum_cons]
  have h0 : (a :: b :: d :: rest).getD (3 * 0 + 2) 0 = d := by simp [List.getD]
  have hf : ((fun j => (a :: b :: d :: rest).getD (3 * j + 2) 0) ∘ Nat.succ)
      = fun j => rest.getD (3 * j + 2) 0 := by
    funext j
    simp only [Function.comp, Nat.succ_eq_add_one]
    rw [show 3 * (j + 1) + 2 = 3 * j + 2 + 3 from by ring, getD_cons3]
  rw [h0, hf]
  ring

lemma parseEntries_spec (c : Nat) (bs : List Nat) (prev : Nat) (h : 3 * c ≤ bs.length) :
    parseEntries c bs prev =
      ((List.range c).map (fun i => bs.getD (3 * i) 0 + 256 * bs.getD (3 * i + 1) 0),
       (List.range c).map (fun i =>
         prev + ((List.range (i + 1)).map (fun j => bs.getD (3 * j + 2) 0)).sum)) := by
  induction c generalizing bs prev with
  | zero => simp [parseEntries]
  | succ c ih =>
    match bs with
    | [] => simp at h
    | [a] => simp at h; omega
    | [a, b] => simp at h; omega
    | a :: b :: d :: rest =>
      have hlen : 3 * c ≤ rest.length := by
        simp only [List.length_cons] at h; omega
      have ihr := ih rest (prev + d) hlen
      simp only [parseEntries, ihr, Prod.mk.injEq]
      constructor
      · rw [List.range_succ_eq_map]
        simp only [List.map_cons, List.map_map]
        rw [List.cons_eq_cons]
        refine ⟨by simp [List.getD], ?_⟩
        apply List.map_congr_left
        intro i _
        simp only [Function.comp, Nat.succ_eq_add_one]
        rw [show 3 * (i + 1) = 3 * i + 3 from by ring]
        rw [show 3 * i + 3 + 1 = 3 * i + 1 + 3 from by ring, getD_cons3, getD_cons3]
      · rw [List.range_succ_eq_map]
        simp only [List.map_cons, List.map_map]
        rw [List.cons_eq_cons]
        refine ⟨by simp [List.range_succ, List.getD], ?_⟩
        apply List.map_congr_left
        intro i _
        simp only [Function.comp, Nat.succ_eq_add_one]
        exact (ts_shift a b d rest prev i).symm

lemma parse_frame_bytes_lengths (buf : List Nat) :
    (parse_frame_bytes buf).1.length = (parse_frame_bytes buf).2.length := by
  unfold parse_frame_bytes parse_checked
  split_ifs <;> first
    | rfl
    | exact parseEntries_length _ _ _

/-- Concrete wire frame: count = 2, t0 = 0, entries (100,10) and (150,5),
followed by its little-endian CRC-16/IBM (0x6B20 = 27424). -/
def frame2 : List Nat := [2, 0, 0, 0, 0, 100, 0, 10, 150, 0, 5] ++ [32, 107]

/-- Concrete structurally valid frame with count byte 0x21 = 33: 33 entries of
bytes 7, correct trailing CRC 16881 = 65*256+241. -/
def frame33a : List Nat := [33, 0, 0, 0, 0] ++ List.replicate 99 7 ++ [241, 65]

/-- A second structurally valid count-33 frame (t0 = 1, entry bytes 9, CRC
32140 = 125*256+140). -/
def frame33b : List Nat := [33, 1, 0, 0, 0] ++ List.replicate 99 9 ++ [140, 125]

/-- C1 (amended): a payload whose first byte is not the 0x21 overflow marker
and which passes the structural and CRC checks decodes to exactly `count`
entries, sample `i` being the little-endian 16-bit value of entry `i` and
timestamp `i` being `t0` plus the cumulative deltas of entries `0..i`. -/
theorem frame_decode_ok (buf : List Nat) (c : Nat)
    (hbytes : ∀ b ∈ buf, b < 256)
    (hhead : buf.headD 0 = c)
    (hovf : c ≠ 0x21)
    (h1 : 1 ≤ c) (h255 : c ≤ 255)
    (hlen : buf.length = 1 + 4 + 3 * c + 2)
    (hcrc : crc16_ibm (buf.take (buf.length - 2)) = crcRecv buf) :
    parse_frame_bytes buf =
      ((List.range c).map (specSample buf), (List.range c).map (specTimestamp buf)) := by
  have hne : buf ≠ [] := by
    intro h
    rw [h] at hlen
    simp at hlen
  have hstrip : stripOverflow buf = buf := by
    unfold stripOverflow
    rw [if_neg]
    rw [hhead]
    exact fun hand => hovf hand.1
  unfold parse_frame_bytes parse_checked
  rw [if_neg hne]
  rw [hstrip, hhead]
  rw [if_neg (by omega)]
  rw [if_neg (by simp only [MAX_SAMPLES]; push_neg; omega)]
  rw [if_neg (by push_neg; omega)]
  rw [if_neg (by push_neg; exact hcrc)]
  rw [parseEntries_spec c (buf.drop 5) (readT0 buf) (by simp [List.length_drop]; omega)]
  simp only [Prod.mk.injEq]
  constructor
  · apply List.map_congr_left
    intro i _
    rw [getD_drop, getD_drop]
    unfold specSample
    rw [show 5 + (3 * i + 1) = 6 + 3 * i from by ring]
  · apply List.map_congr_left
    intro i _
    unfold specTimestamp
    congr 1
    congr 1
    apply List.map_congr_left
    intro j _
    rw [getD_drop]
    unfold specDelta
    rw [show 5 + (3 * j + 2) = 7 + 3 * j from by ring]

/-- C1 witness: the end-to-end fixture of the claim. `frame2` (count = 2,
t0 = 0, entries (100,10),(150,5), valid CRC) decodes to samples [100,150]
at timestamps [10,15]. -/
theorem frame_decode_ok_witness : parse_frame_bytes frame2 = ([100, 150], [10, 15]) := by
  have h := frame_decode_ok frame2 2 (by decide) (by decide) (by decide) (by decide)
    (by decide) (by decide) (by decide)
  rw [h]
  decide

/-- C1 counterexample: `frame33a` passes every check listed by the claim
(count byte 33 in 1..255, exact length 1+4+3*33+2, matching trailing CRC),
yet decoding returns the empty result instead of 33 samples, because the
leading byte 33 = 0x21 is stripped as the overflow marker. -/
theorem frame_decode_count33_cex :
    frame33a.headD 0 = 33 ∧ (1 ≤ 33 ∧ (33 : Nat) ≤ 255) ∧ (∀ b ∈ frame33a, b < 256) ∧
      frame33a.length = 1 + 4 + 3 * 33 + 2 ∧
      crc16_ibm (frame33a.take (frame33a.length - 2)) = crcRecv frame33a ∧
      parse_frame_bytes frame33a = ([], []) := by
  refine ⟨by decide, ⟨by decide, by decide⟩, by decide, by decide, ?_, by decide⟩
  have htake : frame33a.take (frame33a.length - 2)
      = [33, 0, 0, 0, 0] ++ (List.replicate 33 7 ++ (List.replicate 33 7 ++ List.replicate 33 7)) := by
    decide
  rw [htake]
  unfold crc16_ibm
  rw [List.foldl_append, List.foldl_append, List.foldl_append]
  have h5 : List.foldl crcStep 0 [33, 0, 0, 0, 0] = 1980 := by decide
  have hA : List.foldl crcStep 1980 (List.replicate 33 7) = 3109 := by decide
  have hB : List.foldl crcStep 3109 (List.replicate 33 7) = 60397 := by decide
  have hC : List.foldl crcStep 60397 (List.replicate 33 7) = 16881 := by decide
  rw [h5, hA, hB, hC]
  decide

/-- C10: every payload whose first byte is 0x21 = 33 and whose total length
is the count-33 frame length 1+4+3*33+2 = 106 decodes to the empty result,
CRC valid or not: the marker byte is stripped, and the remaining 105 bytes
can never satisfy the exact-length check 7 + 3*count = 105. -/
theorem count33_never_decodes (buf : List Nat)
    (hhead : buf.headD 0 = 0x21)
    (hlen : buf.length = 1 + 4 + 3 * 33 + 2)
    (hcrc : crc16_ibm (buf.take (buf.length - 2)) = crcRecv buf) :
    parse_frame_bytes buf = ([], []) := by
  have hne : buf ≠ [] := by
    intro h
    rw [h] at hlen
    simp at hlen
  have hstrip : stripOverflow buf = buf.tail := by
    unfold stripOverflow
    rw [if_pos ⟨hhead, by omega⟩]
  have htail : buf.tail.length = 105 := by
    rw [List.length_tail]
    omega
  unfold parse_frame_bytes parse_checked
  rw [if_neg hne, hstrip]
  rw [if_neg (by omega)]
  by_cases hc : buf.tail.headD 0 = 0 ∨ MAX_SAMPLES < buf.tail.headD 0
  · rw [if_pos hc]
  · rw [if_neg hc, if_pos (by omega)]

/-- C10 witness: the concrete count-33 frame `frame33b` (valid CRC) decodes
to the empty result. -/
theorem count33_never_decodes_witness : parse_frame_bytes frame33b = ([], []) := by
  apply count33_never_decodes frame33b (by decide) (by decide)
  have htake : frame33b.take (frame33b.length - 2)
      = [33, 1, 0, 0, 0] ++ (List.replicate 33 9 ++ (List.replicate 33 9 ++ List.replicate 33 9)) := by
    decide
  rw [htake]
  unfold crc16_ibm
  rw [List.foldl_append, List.foldl_append, List.foldl_append]
  have h5 : List.foldl crcStep 0 [33, 1, 0, 0, 0] = 64445 := by decide
  have hA : List.foldl crcStep 64445 (List.replicate 33 9) = 29525 := by decide
  have hB : List.foldl crcStep 29525 (List.replicate 33 9) = 61688 := by decide
  have hC : List.foldl crcStep 61688 (List.replicate 33 9) = 32140 := by decide
  rw [h5, hA, hB, hC]
  decide

/-- C2: `parse_frame` is total (modelled as a total function) and always
returns two sequences of the same length; and whenever any of the rejection
conditions holds for the (overflow-stripped) payload — empty input, fewer
than five bytes, count 0 or above 255, total length different from
1+4+3*count+2, or CRC mismatch — `_parse_frame_bytes` returns two empty
sequences, never a partially populated pair. -/
theorem parse_frame_safe (resp buf : List Nat) :
    (parse_frame resp).1.length = (parse_frame resp).2.length ∧
    ((buf = [] ∨ (stripOverflow buf).length < 1 + 2 + 2 ∨
        (stripOverflow buf).headD 0 = 0 ∨ MAX_SAMPLES < (stripOverflow buf).headD 0 ∨
        (stripOverflow buf).length ≠ 1 + 4 + (stripOverflow buf).headD 0 * 3 + 2 ∨
        crc16_ibm ((stripOverflow buf).take ((stripOverflow buf).length - 2))
          ≠ crcRecv (stripOverflow buf)) →
      parse_frame_bytes buf = ([], [])) := by
  constructor
  · unfold parse_frame
    split_ifs <;> first
      | rfl
      | exact parse_frame_bytes_lengths _
  · intro hrej
    unfold parse_frame_bytes parse_checked
    split_ifs with g1 g2 g3 g4 g5
    · rfl
    · rfl
    · rfl
    · rfl
    · rfl
    · exfalso
      rcases hrej with h | h | h | h | h | h
      · exact g1 h
      · exact absurd h (by omega)
      · exact absurd (Or.inl h) g3
      · exact absurd (Or.inr h) g3
      · exact g4 h
      · exact g5 h

/-- C2 witness: lengths agree on a concrete payload, and a concrete
too-short payload is rejected to the empty pair. -/
theorem parse_frame_safe_witness :
    (parse_frame [5, 1]).1.length = (parse_frame [5, 1]).2.length ∧
      parse_frame_bytes [1, 2, 3] = ([], []) := by
  refine ⟨(parse_frame_safe [5, 1] [1, 2, 3]).1, (parse_frame_safe [5, 1] [1, 2, 3]).2 ?_⟩
  right
  left
  decide

/-! ## Stream model (`data_stream.py`), floats as exact rationals -/

/-- Python's `round` (banker's rounding, ties to even), as used by
`int(round(x))` throughout the sources. -/
def pyRound (q : ℚ) : ℤ :=
  if q - ⌊q⌋ < 1 / 2 then ⌊q⌋
  else if 1 / 2 < q - ⌊q⌋ then ⌊q⌋ + 1
  else if ⌊q⌋ % 2 = 0 then ⌊q⌋ else ⌊q⌋ + 1

/-- One second-order direct-form-II-transposed IIR stage with persistent
state, the order-2 specialization of class `IIRFilter` (all three filters
are constructed with `len(b) = len(a) = 3`, `len(zi) = 2`, `a0 = 1`, so the
`1/a0` rescale in `__init__` is the identity for every constructed stage). -/
structure IIR where
  b0 : ℚ
  b1 : ℚ
  b2 : ℚ
  a1 : ℚ
  a2 : ℚ
  z0 : ℚ
  z1 : ℚ
deriving DecidableEq

/-- One sample through `IIRFilter.filter`:
`y = b0*x + z0`, `z0' = b1*x + z1 - a1*y`, `z1' = b2*x - a2*y`. -/
def iirStep (f : IIR) (x : ℚ) : IIR × ℚ :=
  let y := f.b0 * x + f.z0
  ({ f with z0 := f.b1 * x + f.z1 - f.a1 * y, z1 := f.b2 * x - f.a2 * y }, y)

/-- `IIRFilter.filter` over a batch, threading the state. -/
def iirRun : IIR → List ℚ → IIR × List ℚ
  | f, [] => (f, [])
  | f, x :: xs =>
    let p := iirStep f x
    let q := iirRun p.1 xs
    (q.1, p.2 :: q.2)

/-- Python `max` of a nonempty list (0 on the empty list, unreached). -/
def listMax : List ℚ → ℚ
  | [] => 0
  | [x] => x
  | x :: y :: t => max x (listMax (y :: t))

/-- Python `min` of a nonempty list (0 on the empty list, unreached). -/
def listMin : List ℚ → ℚ
  | [] => 0
  | [x] => x
  | x :: y :: t => min x (listMin (y :: t))

/-- Drop the maximal suffix whose elements satisfy `p`: the effect of the
`while deque and p(deque[-1]): deque.pop()` loops on the candidate deques. -/
def dropBackWhile (p : ℚ → Bool) : List ℚ → List ℚ
  | [] => []
  | x :: xs =>
    if dropBackWhile p xs = [] then (if p x then [] else [x])
    else x :: dropBackWhile p xs

/-- Abstract description of the max-candidate deque: the elements of `l`
that are `≥` every element after them (front of the list = front of the
deque = oldest retained candidate). -/
def maxDeque : List ℚ → List ℚ
  | [] => []
  | x :: xs => if ∀ y ∈ xs, y ≤ x then x :: maxDeque xs else maxDeque xs

/-- Abstract description of the min-candidate deque (dual of `maxDeque`). -/
def minDeque : List ℚ → List ℚ
  | [] => []
  | x :: xs => if ∀ y ∈ xs, x ≤ y then x :: minDeque xs else minDeque xs

/-- The mutable state of class `DataStream` (Python lists and deques as
`List`, deque front = list head; floats as `ℚ`). -/
structure DStream where
  name : String
  length : Nat
  fs : ℚ
  adaptive_fast : Bool
  samples : List ℚ
  timestamps : List ℚ
  write_idx : Nat
  filled : Nat
  hp_enabled : Bool
  no_enabled : Bool
  tp_enabled : Bool
  am_enabled : Bool
  hp_filter : IIR
  no_filter : IIR
  tp_filter : IIR
  window_size : Nat
  inhibit_time : Nat
  max_window_size : Nat
  buffer : List ℚ
  buffer_index : Nat
  sum_val : ℚ
  filter_disable : Bool
  inhibit_counter : Nat
  max_window : List ℚ
  max_window_max : List ℚ
  max_window_min : List ℚ
  max_window_sum : ℚ
  max_buffer : List ℚ
  max_index : Nat
  peak_polarity : ℤ
  last_r_polarity : ℤ
  last_r_peak_time : ℚ
  prev_r_peak_time : ℚ
  BPM : ℤ
  newBPM : Bool
  dynamic_threshold : Option ℚ
  last_bpm : ℤ

/-- `DataStream.__init__` (coefficients are the exact decimal literals of
the source; `window_size = round(0.2*fs)`, `inhibit_time = round(0.05*fs)`,
`max_window_size = round(2*fs)`). -/
def DStream.init (length : Nat) (fs : ℚ) (adaptive_fast : Bool) : DStream :=
  let window_size := (pyRound (0.2 * fs)).toNat
  let inhibit_time := (pyRound (0.05 * fs)).toNat
  let max_window_size := (pyRound (2 * fs)).toNat
  { name := "EKG"
    length := length
    fs := fs
    adaptive_fast := adaptive_fast
    samples := List.replicate length 0
    timestamps := List.replicate length 0
    write_idx := 0
    filled := 0
    hp_enabled := true
    no_enabled := true
    tp_enabled := true
    am_enabled := true
    hp_filter :=
      { b0 := 0.95654323, b1 := -1.91308645, b2 := 0.95654323,
        a1 := -1.91119707, a2 := 0.91497583,
        z0 := -0.95654323, z1 := 0.95654323 }
    no_filter :=
      { b0 := 0.974482283, b1 := -1.19339661e-16, b2 := 0.974482283,
        a1 := -1.19339661e-16, a2 := 0.948964567,
        z0 := 0.02551772, z1 := 0.02551772 }
    tp_filter :=
      { b0 := 0.20657208, b1 := 0.41314417, b2 := 0.20657208,
        a1 := -0.36952738, a2 := 0.19581571,
        z0 := 0.79342792, z1 := 0.01075637 }
    window_size := window_size
    inhibit_time := inhibit_time
    max_window_size := max_window_size
    buffer := List.replicate window_size 0
    buffer_index := 0
    sum_val := 0
    filter_disable := false
    inhibit_counter := 0
    max_window := []
    max_window_max := []
    max_window_min := []
    max_window_sum := 0
    max_buffer := List.replicate max_window_size 0
    max_index := 0
    peak_polarity := 1
    last_r_polarity := 1
    last_r_peak_time := 0
    prev_r_peak_time := 0
    BPM := 0
    newBPM := false
    dynamic_threshold := none
    last_bpm := 0 }

/-- `_update_window_stats_fast`: evict the oldest value (and matching deque
fronts) when the window is full, then insert `sample`, maintaining the
monotonic candidate deques and the running sum. -/
def updateWindowStatsFast (s : DStream) (sample : ℚ) : DStream :=
  let s :=
    if s.max_window.length = s.max_window_size then
      let old := s.max_window.headD 0
      let s1 := { s with max_window := s.max_window.tail,
                         max_window_sum := s.max_window_sum - old }
      let s2 :=
        if s1.max_window_max ≠ [] ∧ old = s1.max_window_max.headD 0 then
          { s1 with max_window_max := s1.max_window_max.tail }
        else s1
      if s2.max_window_min ≠ [] ∧ old = s2.max_window_min.headD 0 then
        { s2 with max_window_min := s2.max_window_min.tail }
      else s2
    else s
  let s3 := { s with max_window := s.max_window ++ [sample],
                     max_window_sum := s.max_window_sum + sample }
  let newMax := dropBackWhile (fun y => decide (y < sample)) s3.max_window_max ++ [sample]
  let s4 := { s3 with max_window_max := newMax }
  let newMin := dropBackWhile (fun y => decide (sample < y)) s4.max_window_min ++ [sample]
  { s4 with max_window_min := newMin }

/-- The brute-force branch of `_process_adaptive_mean`: write into the
circular scan buffer and advance the index. -/
def bruteWindowUpdate (s : DStream) (sample : ℚ) : DStream :=
  { s with max_buffer := s.max_buffer.set s.max_index sample,
           max_index := (s.max_index + 1) % s.max_window_size }

/-- The fast-mode window statistics read out after an insertion:
`(max_window_max[0], max_window_min[0], max_window_sum / len(max_window))`. -/
def fastStats (s : DStream) : ℚ × ℚ × ℚ :=
  (s.max_window_max.headD 0, s.max_window_min.headD 0,
    s.max_window_sum / (s.max_window.length : ℚ))

/-- The brute-force window statistics:
`(max(max_buffer), min(max_buffer), sum(max_buffer)/len(max_buffer))`. -/
def bruteStats (s : DStream) : ℚ × ℚ × ℚ :=
  (listMax s.max_buffer, listMin s.max_buffer,
    s.max_buffer.sum / (s.max_buffer.length : ℚ))

/-- Polarity selection, adaptive threshold and candidate test of
`_process_adaptive_mean` (lines computing `dist_max`, `dist_min`,
`peak_polarity`, `dynamic_threshold`, `is_r_candidate`). -/
def polThreshCand (localMax localMin localMean sample : ℚ) : ℤ × ℚ × Bool :=
  if localMean - localMin ≤ localMax - localMean then
    (1, localMean + 0.5 * (localMax - localMean),
      decide (localMean + 0.5 * (localMax - localMean) < sample))
  else
    (-1, localMean - 0.5 * (localMean - localMin),
      decide (sample < localMean - 0.5 * (localMean - localMin)))

/-- Window-statistics phase of `_process_adaptive_mean`: fast or brute
update, then stats read-out. -/
def amStats (s : DStream) (sample : ℚ) : DStream × (ℚ × ℚ × ℚ) :=
  if s.adaptive_fast then
    let s := updateWindowStatsFast s sample
    (s, fastStats s)
  else
    let s := bruteWindowUpdate s sample
    (s, bruteStats s)

/-- Threshold phase: store polarity and threshold, return the candidate
flag. -/
def amThreshold (s : DStream) (sample : ℚ) (st : ℚ × ℚ × ℚ) : DStream × Bool :=
  let p := polThreshCand st.1 st.2.1 st.2.2 sample
  ({ s with peak_polarity := p.1, dynamic_threshold := some p.2.1 }, p.2.2)

/-- Peak-acceptance phase: a candidate more than 250 ms after the last
accepted peak becomes the new peak, may update BPM, and arms refractory. -/
def amPeak (s : DStream) (timestamp : ℚ) (isCand : Bool) : DStream × Bool :=
  if isCand ∧ 250 < timestamp - s.last_r_peak_time then
    let s1 := { s with prev_r_peak_time := s.last_r_peak_time,
                       last_r_peak_time := timestamp }
    let s2 :=
      if 0 < s1.prev_r_peak_time then
        if 0 < s1.last_r_peak_time - s1.prev_r_peak_time then
          { s1 with BPM := pyRound (60000 / (s1.last_r_peak_time - s1.prev_r_peak_time)),
                    newBPM := true,
                    last_r_polarity := s1.peak_polarity }
        else s1
      else s1
    ({ s2 with filter_disable := true, inhibit_counter := s2.inhibit_time }, true)
  else (s, false)

/-- Refractory countdown: decrement while armed, else clear the flag. -/
def amInhibit (s : DStream) : DStream :=
  if s.filter_disable ∧ 0 < s.inhibit_counter then
    { s with inhibit_counter := s.inhibit_counter - 1 }
  else { s with filter_disable := false }

/-- Output phase: raw sample during refractory, else the moving-average
smoother update and its mean. -/
def amOutput (s : DStream) (sample : ℚ) : DStream × ℚ :=
  if s.filter_disable then (s, sample)
  else
    let sum := s.sum_val - s.buffer.getD s.buffer_index 0 + sample
    let s1 := { s with sum_val := sum, buffer := s.buffer.set s.buffer_index sample }
    ({ s1 with buffer_index := (s1.buffer_index + 1) % s1.window_size },
      sum / (s.window_size : ℚ))

/-- `_process_adaptive_mean`, phase by phase; the `Bool` reports whether
this sample was accepted as a new peak (the branch taken at the 250 ms
test). -/
def processAdaptiveMean (s : DStream) (sample timestamp : ℚ) : DStream × ℚ × Bool :=
  let a := amStats s sample
  let b := amThreshold a.1 sample a.2
  let c := amPeak b.1 timestamp b.2
  let d := amInhibit c.1
  let e := amOutput d sample
  (e.1, e.2, c.2)

/-- `_append_sample`: circular overwrite plus saturating fill counter. -/
def appendSample (s : DStream) (sample timestamp : ℚ) : DStream :=
  let s1 := { s with samples := s.samples.set s.write_idx sample,
                     timestamps := s.timestamps.set s.write_idx timestamp }
  let s2 := { s1 with write_idx := (s1.write_idx + 1) % s1.length }
  if s2.filled < s2.length then { s2 with filled := s2.filled + 1 } else s2

/-- The per-sample loop of `add_samples`. -/
def addLoop : DStream → List (ℚ × ℚ) → DStream
  | s, [] => s
  | s, (v, t) :: rest =>
    let r := if s.am_enabled then processAdaptiveMean s v t else (s, v, false)
    addLoop (appendSample r.1 r.2.1 t) rest

/-- One optionally-enabled filter stage of `add_samples` (a disabled stage
passes data through and keeps its state). -/
def applyStage (enabled : Bool) (f : IIR) (xs : List ℚ) : IIR × List ℚ :=
  if enabled then iirRun f xs else (f, xs)

/-- `add_samples`: notch → lowpass → highpass cascade, dead-zone cleanup,
then the per-sample adaptive-mean/append loop. -/
def addSamples (s : DStream) (samples timestamps : List ℚ) : DStream :=
  if samples = [] then s
  else
    let pn := applyStage s.no_enabled s.no_filter samples
    let pt := applyStage s.tp_enabled s.tp_filter pn.2
    let ph := applyStage s.hp_enabled s.hp_filter pt.2
    let s1 := { s with no_filter := pn.1, tp_filter := pt.1, hp_filter := ph.1 }
    let filtered := ph.2.map (fun v => if |v| < 0.001 then 0 else v)
    addLoop s1 (filtered.zip timestamps)

/-- `DataStream.last(n)`: the most recent `min(n, filled)` entries in
chronological order, handling the wraparound split. -/
def lastN (s : DStream) (n : Nat) : List ℚ × List ℚ :=
  if n = 0 ∨ s.filled = 0 then ([], [])
  else
    let m := min n s.filled
    let start := (((s.write_idx : ℤ) - m) % (s.length : ℤ)).toNat
    if start < s.write_idx then
      ((s.samples.take s.write_idx).drop start, (s.timestamps.take s.write_idx).drop start)
    else
      (s.samples.drop start ++ s.samples.take s.write_idx,
       s.timestamps.drop start ++ s.timestamps.take s.write_idx)

/-- Fold of fast window insertions (for the tracker claims). -/
def fastTrackRun (s : DStream) (xs : List ℚ) : DStream :=
  xs.foldl updateWindowStatsFast s

/-- Fold of brute-force window insertions. -/
def bruteTrackRun (s : DStream) (xs : List ℚ) : DStream :=
  xs.foldl bruteWindowUpdate s

/-- Fold of ring-buffer appends over (sample, timestamp) pairs. -/
def appendRun (s : DStream) (hs : List (ℚ × ℚ)) : DStream :=
  hs.foldl (fun s p => appendSample s p.1 p.2) s

/-- Run `_process_adaptive_mean` over a list of (sample, timestamp) pairs,
collecting the timestamps of the accepted peaks in order. -/
def amRunEvents : DStream → List (ℚ × ℚ) → DStream × List ℚ
  | s, [] => (s, [])
  | s, (v, t) :: rest =>
    let r := processAdaptiveMean s v t
    let q := amRunEvents r.1 rest
    (q.1, if r.2.2 then t :: q.2 else q.2)

/-! ### Monotonic-deque lemmas (fast window tracker) -/

lemma mem_maxDeque {y : ℚ} : ∀ {l : List ℚ}, y ∈ maxDeque l → y ∈ l := by
  intro l
  induction l with
  | nil => simp [maxDeque]
  | cons x xs ih =>
    simp only [maxDeque]
    split_ifs with h
    · intro hy
      rcases List.mem_cons.1 hy with h1 | h1
      · exact h1 ▸ List.mem_cons_self _ _
      · exact List.mem_cons_of_mem _ (ih h1)
    · intro hy
      exact List.mem_cons_of_mem _ (ih hy)

lemma mem_minDeque {y : ℚ} : ∀ {l : List ℚ}, y ∈ minDeque l → y ∈ l := by
  intro l
  induction l with
  | nil => simp [minDeque]
  | cons x xs ih =>
    simp only [minDeque]
    split_ifs with h
    · intro hy
      rcases List.mem_cons.1 hy with h1 | h1
      · exact h1 ▸ List.mem_cons_self _ _
      · exact List.mem_cons_of_mem _ (ih h1)
    · intro hy
      exact List.mem_cons_of_mem _ (ih hy)

lemma listMax_cons (x : ℚ) (xs : List ℚ) (h : xs ≠ []) :
    listMax (x :: xs) = max x (listMax xs) := by
  cases xs with
  | nil => exact absurd rfl h
  | cons y t => rfl

lemma listMin_cons (x : ℚ) (xs : List ℚ) (h : xs ≠ []) :
    listMin (x :: xs) = min x (listMin xs) := by
  cases xs with
  | nil => exact absurd rfl h
  | cons y t => rfl

lemma le_listMax : ∀ {l : List ℚ} {y : ℚ}, y ∈ l → y ≤ listMax l := by
  intro l
  induction l with
  | nil => simp
  | cons x xs ih =>
    intro y hy
    cases xs with
    | nil =>
      simp only [List.mem_singleton] at hy
      simp [listMax, hy]
    | cons z t =>
      rw [listMax_cons x (z :: t) (by simp)]
      rcases List.mem_cons.1 hy with h1 | h1
      · exact h1 ▸ le_max_left _ _
      · exact le_trans (ih h1) (le_max_right _ _)

lemma listMin_le : ∀ {l : List ℚ} {y : ℚ}, y ∈ l → listMin l ≤ y := by
  intro l
  induction l with
  | nil => simp
  | cons x xs ih =>
    intro y hy
    cases xs with
    | nil =>
      simp only [List.mem_singleton] at hy
      simp [listMin, hy]
    | cons z t =>
      rw [listMin_cons x (z :: t) (by simp)]
      rcases List.mem_cons.1 hy with h1 | h1
      · exact h1 ▸ min_le_left _ _
      · exact le_trans (min_le_right _ _) (ih h1)

lemma listMax_le {x : ℚ} : ∀ {l : List ℚ}, l ≠ [] → (∀ y ∈ l, y ≤ x) → listMax l ≤ x := by
  intro l
  induction l with
  | nil => simp
  | cons z xs ih =>
    intro _ hall
    cases xs with
    | nil => simpa [listMax] using hall z (by simp)
    | cons w t =>
      rw [listMax_cons z (w :: t) (by simp)]
      exact max_le (hall z (by simp))
        (ih (by simp) (fun y hy => hall y (List.mem_cons_of_mem _ hy)))

lemma le_listMin {x : ℚ} : ∀ {l : List ℚ}, l ≠ [] → (∀ y ∈ l, x ≤ y) → x ≤ listMin l := by
  intro l
  induction l with
  | nil => simp
  | cons z xs ih =>
    intro _ hall
    cases xs with
    | nil => simpa [listMin] using hall z (by simp)
    | cons w t =>
      rw [listMin_cons z (w :: t) (by simp)]
      exact le_min (hall z (by simp))
        (ih (by simp) (fun y hy => hall y (List.mem_cons_of_mem _ hy)))

lemma maxDeque_ne_nil : ∀ {l : List ℚ}, l ≠ [] → maxDeque l ≠ [] := by
  intro l
  induction l with
  | nil => simp
  | cons x xs ih =>
    intro _
    simp only [maxDeque]
    split_ifs with h
    · simp
    · have hxs : xs ≠ [] := by
        intro hx
        rw [hx] at h
        simp at h
      exact ih hxs

lemma minDeque_ne_nil : ∀ {l : List ℚ}, l ≠ [] → minDeque l ≠ [] := by
  intro l
  induction l with
  | nil => simp
  | cons x xs ih =>
    intro _
    simp only [minDeque]
    split_ifs with h
    · simp
    · have hxs : xs ≠ [] := by
        intro hx
        rw [hx] at h
        simp at h
      exact ih hxs

lemma head_maxDeque : ∀ {l : List ℚ}, l ≠ [] → (maxDeque l).headD 0 = listMax l := by
  intro l
  induction l with
  | nil => simp
  | cons x xs ih =>
    intro _
    simp only [maxDeque]
    split_ifs with h
    · cases xs with
      | nil => simp [listMax]
      | cons z t =>
        rw [List.headD_cons, listMax_cons x (z :: t) (by simp)]
        exact (max_eq_left (listMax_le (by simp) h)).symm
    · have hxs : xs ≠ [] := by
        intro hx
        rw [hx] at h
        simp at h
      rw [ih hxs, listMax_cons x xs hxs]
      push_neg at h
      obtain ⟨y, hy, hxy⟩ := h
      exact (max_eq_right (le_of_lt (lt_of_lt_of_le hxy (le_listMax hy)))).symm

lemma head_minDeque : ∀ {l : List ℚ}, l ≠ [] → (minDeque l).headD 0 = listMin l := by
  intro l
  induction l with
  | nil => simp
  | cons x xs ih =>
    intro _
    simp only [minDeque]
    split_ifs with h
    · cases xs with
      | nil => simp [listMin]
      | cons z t =>
        rw [List.headD_cons, listMin_cons x (z :: t) (by simp)]
        exact (min_eq_left (le_listMin (by simp) h)).symm
    · have hxs : xs ≠ [] := by
        intro hx
        rw [hx] at h
        simp at h
      rw [ih hxs, listMin_cons x xs hxs]
      push_neg at h
      obtain ⟨y, hy, hxy⟩ := h
      exact (min_eq_right (le_of_lt (lt_of_le_of_lt (listMin_le hy) hxy))).symm

lemma dropBackWhile_all {p : ℚ → Bool} :
    ∀ {l : List ℚ}, (∀ y ∈ l, p y = true) → dropBackWhile p l = [] := by
  intro l
  induction l with
  | nil => simp [dropBackWhile]
  | cons x xs ih =>
    intro h
    simp only [dropBackWhile]
    rw [ih (fun y hy => h y (List.mem_cons_of_mem _ hy))]
    simp [h x (by simp)]

lemma maxDeque_snoc (l : List ℚ) (v : ℚ) :
    maxDeque (l ++ [v]) = dropBackWhile (fun y => decide (y < v)) (maxDeque l) ++ [v] := by
  induction l with
  | nil => simp [maxDeque, dropBackWhile]
  | cons x t ih =>
    by_cases hx : ∀ y ∈ t, y ≤ x
    · have hmd : maxDeque (x :: t) = x :: maxDeque t := by
        simp only [maxDeque]
        rw [if_pos hx]
      by_cases hv : x < v
      · have hcond : ¬ (∀ y ∈ t ++ [v], y ≤ x) := by
          intro hall
          exact absurd (hall v (by simp)) (not_le.2 hv)
        have hLHS : maxDeque ((x :: t) ++ [v]) = maxDeque (t ++ [v]) := by
          simp only [List.cons_append, maxDeque, List.append_eq]
          rw [if_neg hcond]
        rw [hLHS, ih, hmd]
        have hdrop : ∀ y ∈ maxDeque t, (fun y => decide (y < v)) y = true := fun y hy => by
          simp only [decide_eq_true_eq]
          exact lt_of_le_of_lt (hx y (mem_maxDeque hy)) hv
        have hdropx : ∀ y ∈ x :: maxDeque t, (fun y => decide (y < v)) y = true := by
          intro y hy
          rcases List.mem_cons.1 hy with h1 | h1
          · simp only [decide_eq_true_eq]
            exact h1 ▸ hv
          · exact hdrop y h1
        rw [dropBackWhile_all hdrop, dropBackWhile_all hdropx]
      · have hcond : ∀ y ∈ t ++ [v], y ≤ x := by
          intro y hy
          rcases List.mem_append.1 hy with h1 | h1
          · exact hx y h1
          · simp only [List.mem_singleton] at h1
            exact h1 ▸ not_lt.1 hv
        have hLHS : maxDeque ((x :: t) ++ [v]) = x :: maxDeque (t ++ [v]) := by
          simp only [List.cons_append, maxDeque, List.append_eq]
          rw [if_pos hcond]
        rw [hLHS, ih, hmd]
        by_cases h1 : dropBackWhile (fun y => decide (y < v)) (maxDeque t) = []
        · simp only [dropBackWhile, h1, if_pos]
          rw [if_neg (by simp [not_lt.1 hv])]
          simp
        · simp only [dropBackWhile]
          rw [if_neg h1]
          simp

    · have hmd : maxDeque (x :: t) = maxDeque t := by
        simp only [maxDeque]
        rw [if_neg hx]
      have hcond : ¬ (∀ y ∈ t ++ [v], y ≤ x) := by
        intro hall
        exact hx (fun y hy => hall y (List.mem_append_left _ hy))
      have hLHS : maxDeque ((x :: t) ++ [v]) = maxDeque (t ++ [v]) := by
        simp only [List.cons_append, maxDeque, List.append_eq]
        rw [if_neg hcond]
      rw [hLHS, ih, hmd]

lemma minDeque_snoc (l : List ℚ) (v : ℚ) :
    minDeque (l ++ [v]) = dropBackWhile (fun y => decide (v < y)) (minDeque l) ++ [v] := by
  induction l with
  | nil => simp [minDeque, dropBackWhile]
  | cons x t ih =>
    by_cases hx : ∀ y ∈ t, x ≤ y
    · have hmd : minDeque (x :: t) = x :: minDeque t := by
        simp only [minDeque]
        rw [if_pos hx]
      by_cases hv : v < x
      · have hcond : ¬ (∀ y ∈ t ++ [v], x ≤ y) := by
          intro hall
          exact absurd (hall v (by simp)) (not_le.2 hv)
        have hLHS : minDeque ((x :: t) ++ [v]) = minDeque (t ++ [v]) := by
          simp only [List.cons_append, minDeque, List.append_eq]
          rw [if_neg hcond]
        rw [hLHS, ih, hmd]
        have hdrop : ∀ y ∈ minDeque t, (fun y => decide (v < y)) y = true := fun y hy => by
          simp only [decide_eq_true_eq]
          exact lt_of_lt_of_le hv (hx y (mem_minDeque hy))
        have hdropx : ∀ y ∈ x :: minDeque t, (fun y => decide (v < y)) y = true := by
          intro y hy
          rcases List.mem_cons.1 hy with h1 | h1
          · simp only [decide_eq_true_eq]
            exact h1 ▸ hv
          · exact hdrop y h1
        rw [dropBackWhile_all hdrop, dropBackWhile_all hdropx]
      · have hcond : ∀ y ∈ t ++ [v], x ≤ y := by
          intro y hy
          rcases List.mem_append.1 hy with h1 | h1
          · exact hx y h1
          · simp only [List.mem_singleton] at h1
            exact h1 ▸ not_lt.1 hv
        have hLHS : minDeque ((x :: t) ++ [v]) = x :: minDeque (t ++ [v]) := by
          simp only [List.cons_append, minDeque, List.append_eq]
          rw [if_pos hcond]
        rw [hLHS, ih, hmd]
        by_cases h1 : dropBackWhile (fun y => decide (v < y)) (minDeque t) = []
        · simp only [dropBackWhile, h1, if_pos]
          rw [if_neg (by simp [not_lt.1 hv])]
          simp
        · simp only [dropBackWhile]
          rw [if_neg h1]
          simp
    · have hmd : minDeque (x :: t) = minDeque t := by
        simp only [minDeque]
        rw [if_neg hx]
      have hcond : ¬ (∀ y ∈ t ++ [v], x ≤ y) := by
        intro hall
        exact hx (fun y hy => hall y (List.mem_append_left _ hy))
      have hLHS : minDeque ((x :: t) ++ [v]) = minDeque (t ++ [v]) := by
        simp only [List.cons_append, minDeque, List.append_eq]
        rw [if_neg hcond]
      rw [hLHS, ih, hmd]

lemma maxDeque_evict (x : ℚ) (xs : List ℚ) :
    (if maxDeque (x :: xs) ≠ [] ∧ x = (maxDeque (x :: xs)).headD 0
     then (maxDeque (x :: xs)).tail else maxDeque (x :: xs)) = maxDeque xs := by
  by_cases hx : ∀ y ∈ xs, y ≤ x
  · have hmd : maxDeque (x :: xs) = x :: maxDeque xs := by
      simp only [maxDeque]
      rw [if_pos hx]
    rw [hmd, if_pos ⟨by simp, by simp⟩]
    rfl
  · have hmd : maxDeque (x :: xs) = maxDeque xs := by
      simp only [maxDeque]
      rw [if_neg hx]
    rw [hmd, if_neg]
    rintro ⟨hne, hhead⟩
    have hxs : xs ≠ [] := by
      intro h
      rw [h] at hx
      simp at hx
    rw [head_maxDeque hxs] at hhead
    push_neg at hx
    obtain ⟨y, hy, hxy⟩ := hx
    exact absurd hhead (ne_of_lt (lt_of_lt_of_le hxy (le_listMax hy)))

lemma minDeque_evict (x : ℚ) (xs : List ℚ) :
    (if minDeque (x :: xs) ≠ [] ∧ x = (minDeque (x :: xs)).headD 0
     then (minDeque (x :: xs)).tail else minDeque (x :: xs)) = minDeque xs := by
  by_cases hx : ∀ y ∈ xs, x ≤ y
  · have hmd : minDeque (x :: xs) = x :: minDeque xs := by
      simp only [minDeque]
      rw [if_pos hx]
    rw [hmd, if_pos ⟨by simp, by simp⟩]
    rfl
  · have hmd : minDeque (x :: xs) = minDeque xs := by
      simp only [minDeque]
      rw [if_neg hx]
    rw [hmd, if_neg]
    rintro ⟨hne, hhead⟩
    have hxs : xs ≠ [] := by
      intro h
      rw [h] at hx
      simp at hx
    rw [head_minDeque hxs] at hhead
    push_neg at hx
    obtain ⟨y, hy, hxy⟩ := hx
    exact absurd hhead (ne_of_gt (lt_of_le_of_lt (listMin_le hy) hxy))

/-- One fast insertion, evaluated: assuming the candidate deques currently
abstract to `maxDeque`/`minDeque` of the window, they still do afterwards,
and window/sum evolve by evict-then-append. -/
lemma updateFast_eval (s : DStream) (v : ℚ)
    (hmax : s.max_window_max = maxDeque s.max_window)
    (hmin : s.max_window_min = minDeque s.max_window) :
    updateWindowStatsFast s v = { s with
      max_window :=
        (if s.max_window.length = s.max_window_size then s.max_window.tail else s.max_window) ++ [v],
      max_window_sum :=
        (if s.max_window.length = s.max_window_size then
          s.max_window_sum - s.max_window.headD 0 else s.max_window_sum) + v,
      max_window_max :=
        maxDeque ((if s.max_window.length = s.max_window_size then s.max_window.tail
          else s.max_window) ++ [v]),
      max_window_min :=
        minDeque ((if s.max_window.length = s.max_window_size then s.max_window.tail
          else s.max_window) ++ [v]) } := by
  by_cases hfull : s.max_window.length = s.max_window_size
  · simp only [updateWindowStatsFast, hfull, if_pos, if_true]
    cases hw : s.max_window with
    | nil =>
      rw [hw] at hmax hmin
      simp only [maxDeque, minDeque] at hmax hmin
      simp [hmax, hmin, maxDeque, minDeque, dropBackWhile, hw]
    | cons x xs =>
      rw [hw] at hmax hmin
      have hemax := maxDeque_evict x xs
      have hemin := minDeque_evict x xs
      simp only [hw, List.headD_cons, List.tail_cons, hmax, hmin]
      split_ifs with h1 h2 h2
      · rw [if_pos ⟨h1.1, h1.2⟩] at hemax
        rw [if_pos ⟨h2.1, h2.2⟩] at hemin
        simp only [maxDeque_snoc, minDeque_snoc, hemax, hemin]
      · rw [if_pos ⟨h1.1, h1.2⟩] at hemax
        rw [if_neg h2] at hemin
        simp only [maxDeque_snoc, minDeque_snoc, hemax, hemin]
      · rw [if_neg h1] at hemax
        rw [if_pos ⟨h2.1, h2.2⟩] at hemin
        simp only [maxDeque_snoc, minDeque_snoc, hemax, hemin]
      · rw [if_neg h1] at hemax
        rw [if_neg h2] at hemin
        simp only [maxDeque_snoc, minDeque_snoc, hemax, hemin]
  · simp only [updateWindowStatsFast, hfull, if_false]
    simp only [hmax, hmin, maxDeque_snoc, minDeque_snoc]

/-- State of the fast tracker after inserting `xs` from a fresh stream:
the window is the most recent `min |xs| W` values, the candidate deques are
the monotonic abstractions of the window, the sum is the window sum, and
`max_window_size` is untouched. -/
lemma fastTrackRun_state (L : Nat) (fs : ℚ) (b : Bool) (xs : List ℚ)
    (hW : 0 < (DStream.init L fs b).max_window_size) :
    (fastTrackRun (DStream.init L fs b) xs).max_window
        = xs.drop (xs.length - (DStream.init L fs b).max_window_size) ∧
    (fastTrackRun (DStream.init L fs b) xs).max_window_max
        = maxDeque ((fastTrackRun (DStream.init L fs b) xs).max_window) ∧
    (fastTrackRun (DStream.init L fs b) xs).max_window_min
        = minDeque ((fastTrackRun (DStream.init L fs b) xs).max_window) ∧
    (fastTrackRun (DStream.init L fs b) xs).max_window_sum
        = ((fastTrackRun (DStream.init L fs b) xs).max_window).sum ∧
    (fastTrackRun (DStream.init L fs b) xs).max_window_size
        = (DStream.init L fs b).max_window_size := by
  set W := (DStream.init L fs b).max_window_size with hWdef
  induction xs using List.reverseRecOn with
  | nil =>
    refine ⟨?_, ?_, ?_, ?_, ?_⟩
    · simp [fastTrackRun, DStream.init, maxDeque, minDeque]
    · simp [fastTrackRun, DStream.init, maxDeque, minDeque]
    · simp [fastTrackRun, DStream.init, maxDeque, minDeque]
    · simp [fastTrackRun, DStream.init, maxDeque, minDeque]
    · exact hWdef.symm
  | append_singleton vs v ih =>
    obtain ⟨ihw, ihmax, ihmin, ihsum, ihsize⟩ := ih
    have hrun : fastTrackRun (DStream.init L fs b) (vs ++ [v])
        = updateWindowStatsFast (fastTrackRun (DStream.init L fs b) vs) v := by
      unfold fastTrackRun
      rw [List.foldl_append]
      rfl
    set s := fastTrackRun (DStream.init L fs b) vs
    have heval := updateFast_eval s v ihmax ihmin
    have hlen : s.max_window.length = min vs.length W := by
      rw [ihw, List.length_drop]
      omega
    have hwin : (if s.max_window.length = s.max_window_size then s.max_window.tail
        else s.max_window) ++ [v] = (vs ++ [v]).drop (vs.length + 1 - W) := by
      rw [ihsize]
      by_cases hge : W ≤ vs.length
      · have hcond : s.max_window.length = W := by rw [hlen]; omega
        rw [if_pos hcond, ihw, List.tail_drop]
        rw [List.drop_append_of_le_length (by omega)]
        congr 2
        omega
      · have hcond : ¬ s.max_window.length = W := by rw [hlen]; omega
        rw [if_neg hcond, ihw]
        have h0 : vs.length - W = 0 := by omega
        have h1 : vs.length + 1 - W = 0 := by omega
        rw [h0, h1]
        simp
    rw [hrun, heval]
    refine ⟨?_, ?_, ?_, ?_, ?_⟩
    · simpa using hwin
    · simp only []
    · simp only []
    · simp only []
      rw [ihsum]
      by_cases hfull : s.max_window.length = s.max_window_size
      · rw [if_pos hfull, if_pos hfull]
        cases hw : s.max_window with
        | nil => simp
        | cons x t =>
          simp only [List.headD_cons, List.tail_cons, List.sum_cons, List.sum_append,
            List.sum_singleton, List.sum_nil]
          ring
      · rw [if_neg hfull, if_neg hfull]
        simp [List.sum_append]
    · simpa using ihsize

/-- Claim C5: after every insertion into the fast window tracker, the front
of the max-candidate deque is the window maximum, the front of the
min-candidate deque is the window minimum, the running sum is the window
sum, and the window holds at most `W = round(2*fs)` elements — precisely the
most recent ones, the oldest being evicted on overflow. -/
theorem fast_tracker_invariant (L : Nat) (fs : ℚ) (b : Bool) (vs : List ℚ) (v : ℚ)
    (hW : 0 < (DStream.init L fs b).max_window_size) :
    (fastTrackRun (DStream.init L fs b) (vs ++ [v])).max_window ≠ [] ∧
    (fastTrackRun (DStream.init L fs b) (vs ++ [v])).max_window_max.headD 0
      = listMax ((fastTrackRun (DStream.init L fs b) (vs ++ [v])).max_window) ∧
    (fastTrackRun (DStream.init L fs b) (vs ++ [v])).max_window_min.headD 0
      = listMin ((fastTrackRun (DStream.init L fs b) (vs ++ [v])).max_window) ∧
    (fastTrackRun (DStream.init L fs b) (vs ++ [v])).max_window_sum
      = ((fastTrackRun (DStream.init L fs b) (vs ++ [v])).max_window).sum ∧
    (fastTrackRun (DStream.init L fs b) (vs ++ [v])).max_window.length
      ≤ (pyRound (2 * fs)).toNat ∧
    (fastTrackRun (DStream.init L fs b) (vs ++ [v])).max_window
      = (vs ++ [v]).drop (vs.length + 1 - (pyRound (2 * fs)).toNat) := by
  have hWeq : (DStream.init L fs b).max_window_size = (pyRound (2 * fs)).toNat := rfl
  obtain ⟨hw, hmax, hmin, hsum, _⟩ := fastTrackRun_state L fs b (vs ++ [v]) hW
  rw [hWeq] at hw
  have hne : (fastTrackRun (DStream.init L fs b) (vs ++ [v])).max_window ≠ [] := by
    rw [hw]
    intro hcon
    have := List.drop_eq_nil_iff_le.mp hcon
    simp only [List.length_append, List.length_singleton] at this
    rw [hWeq] at hW
    omega
  refine ⟨hne, ?_, ?_, hsum, ?_, ?_⟩
  · rw [hmax, head_maxDeque hne]
  · rw [hmin, head_minDeque hne]
  · rw [hw, List.length_drop]
    simp only [List.length_append, List.length_singleton]
    omega
  · rw [hw]
    simp [List.length_append]

/-! ### Circular-buffer contents (brute-force tracker and ring buffer) -/

lemma set_append_left (l₁ l₂ : List ℚ) (n : Nat) (v : ℚ) :
    (l₁ ++ l₂).set (l₁.length + n) v = l₁ ++ l₂.set n v := by
  induction l₁ with
  | nil => simp
  | cons x t ih =>
    simp only [List.cons_append, List.length_cons]
    rw [show t.length + 1 + n = (t.length + n) + 1 from by omega]
    simp only [List.set]
    rw [ih]

/-- Contents of a length-`L` circular buffer, initially all zero, after the
values `vs` have been written in sequence at the rotating index: the last
`L` values, rotated so that index `|vs| % L` holds the oldest retained one
(zero-padded while not yet full). -/
def ringList (L : Nat) (vs : List ℚ) : List ℚ :=
  if vs.length ≤ L then vs ++ List.replicate (L - vs.length) 0
  else
    (vs.drop (vs.length - L)).drop (L - vs.length % L)
      ++ (vs.drop (vs.length - L)).take (L - vs.length % L)

lemma ringList_length (L : Nat) (hL : 0 < L) (vs : List ℚ) : (ringList L vs).length = L := by
  unfold ringList
  split_ifs with h
  · simp [List.length_replicate]
    omega
  · have hlt : vs.length % L < L := Nat.mod_lt _ hL
    simp [List.length_drop, List.length_take]
    omega

lemma ringList_snoc (L : Nat) (hL : 0 < L) (vs : List ℚ) (v : ℚ) :
    ringList L (vs ++ [v]) = (ringList L vs).set (vs.length % L) v := by
  by_cases hk : vs.length < L
  · have hmod : vs.length % L = vs.length := Nat.mod_eq_of_lt hk
    have hrep : List.replicate (L - vs.length) (0:ℚ)
        = 0 :: List.replicate (L - vs.length - 1) 0 := by
      rw [← List.replicate_succ]
      congr 1
      omega
    rw [ringList, if_pos (show (vs ++ [v]).length ≤ L by simp; omega)]
    rw [hmod, ringList, if_pos (by omega)]
    rw [hrep]
    have := set_append_left vs (0 :: List.replicate (L - vs.length - 1) 0) 0 v
    rw [Nat.add_zero] at this
    rw [this]
    simp only [List.set]
    rw [List.append_assoc, List.singleton_append]
    have harith : L - (vs ++ [v]).length = L - vs.length - 1 := by
      simp only [List.length_append, List.length_singleton]
      omega
    rw [harith]
  · push_neg at hk
    set k := vs.length with hkdef
    set r := k % L with hrdef
    have hrlt : r < L := Nat.mod_lt _ (by omega)
    have hwinlen : (vs.drop (k - L)).length = L := by
      rw [List.length_drop]
      omega
    obtain ⟨w0, wrest, hwin⟩ : ∃ w0 wrest, vs.drop (k - L) = w0 :: wrest := by
      cases hc : vs.drop (k - L) with
      | nil => rw [hc] at hwinlen; simp at hwinlen; omega
      | cons a t => exact ⟨a, t, rfl⟩
    have hwrest : wrest.length = L - 1 := by
      have := hwinlen
      rw [hwin] at this
      simp at this
      omega
    have hdropA : (vs.drop (k - L)).drop (L - r) = wrest.drop (L - r - 1) := by
      rw [hwin]
      cases hLr : L - r with
      | zero => omega
      | succ m =>
        simp only [List.drop_succ_cons]
        congr 1
    have htakeB : (vs.drop (k - L)).take (L - r) = w0 :: wrest.take (L - r - 1) := by
      rw [hwin]
      cases hLr : L - r with
      | zero => omega
      | succ m =>
        simp only [List.take_succ_cons]
        congr 2
    have hlenA : ((vs.drop (k - L)).drop (L - r)).length = r := by
      rw [List.length_drop, hwinlen]
      omega
    -- the old ring with the write slot exposed (valid also at k = L, where
    -- both branches of ringList coincide)
    have hfull : ringList L vs
        = (vs.drop (k - L)).drop (L - r) ++ (vs.drop (k - L)).take (L - r) := by
      by_cases heq : vs.length ≤ L
      · have h0 : r = 0 := by
          rw [hrdef, show k = L from by omega]
          exact Nat.mod_self L
        rw [ringList, if_pos heq, h0]
        rw [show k - L = 0 from by omega, show L - vs.length = 0 from by omega]
        simp only [Nat.sub_zero, List.drop_zero, List.replicate_zero, List.append_nil]
        rw [List.drop_eq_nil_of_le (by omega), List.take_of_length_le (by omega)]
        simp
      · rw [ringList, if_neg heq]
    have hold : ringList L vs
        = (vs.drop (k - L)).drop (L - r) ++ (w0 :: wrest.take (L - r - 1)) := by
      rw [hfull, htakeB]
    -- the set at index r hits the head of the second part
    have hset : (ringList L vs).set r v
        = (vs.drop (k - L)).drop (L - r) ++ (v :: wrest.take (L - r - 1)) := by
      rw [hold]
      have := set_append_left ((vs.drop (k - L)).drop (L - r))
        (w0 :: wrest.take (L - r - 1)) 0 v
      rw [Nat.add_zero, hlenA] at this
      rw [this]
      simp [List.set]
    rw [hset, hdropA]
    -- the new window after the snoc
    have hwin' : (vs ++ [v]).drop (k + 1 - L) = wrest ++ [v] := by
      rw [List.drop_append_of_le_length (by omega)]
      congr 1
      have : k + 1 - L = (k - L) + 1 := by omega
      rw [this]
      rw [← List.drop_drop]
      rw [hwin]
      simp
    have h2 : r % L = r := Nat.mod_eq_of_lt hrlt
    have hmodstep : (k + 1) % L = (r + 1) % L := by
      calc (k + 1) % L = (k % L + 1 % L) % L := Nat.add_mod k 1 L
        _ = (r + 1 % L) % L := by rw [← hrdef]
        _ = (r % L + 1 % L) % L := by rw [h2]
        _ = (r + 1) % L := (Nat.add_mod r 1 L).symm
    by_cases hrL : r + 1 < L
    · have hr' : (k + 1) % L = r + 1 := by
        rw [hmodstep]
        exact Nat.mod_eq_of_lt hrL
      rw [ringList, if_neg (by simp; omega)]
      simp only [List.length_append, List.length_singleton]
      rw [hwin', hr']
      rw [List.drop_append_of_le_length (by omega),
        List.take_append_of_le_length (by omega)]
      rw [List.append_assoc, Nat.sub_sub]
      simp [List.singleton_append]
    · have hrL' : r + 1 = L := by omega
      have hr' : (k + 1) % L = 0 := by
        rw [hmodstep, hrL']
        exact Nat.mod_self L
      rw [ringList, if_neg (by simp; omega)]
      simp only [List.length_append, List.length_singleton]
      rw [hwin', hr']
      simp only [Nat.sub_zero]
      have hlen' : (wrest ++ [v]).length = L := by
        simp [hwrest]
        omega
      rw [List.drop_eq_nil_of_le (le_of_eq hlen'), List.take_of_length_le (le_of_eq hlen')]
      simp only [List.nil_append]
      have h0 : L - r - 1 = 0 := by omega
      rw [h0]
      simp

lemma mod_succ_shift (a L : Nat) : (a % L + 1) % L = (a + 1) % L := by
  calc (a % L + 1) % L = (a % L % L + 1 % L) % L := Nat.add_mod (a % L) 1 L
    _ = (a % L + 1 % L) % L := by rw [Nat.mod_mod_of_dvd a dvd_rfl]
    _ = (a + 1) % L := (Nat.add_mod a 1 L).symm

/-- State of the brute-force tracker after inserting `xs` from a fresh
stream: the scan buffer holds the rotated last-`W` values (zero padded), the
index is `|xs| % W`. -/
lemma bruteTrackRun_state (L : Nat) (fs : ℚ) (b : Bool) (xs : List ℚ)
    (hW : 0 < (DStream.init L fs b).max_window_size) :
    (bruteTrackRun (DStream.init L fs b) xs).max_buffer
        = ringList (DStream.init L fs b).max_window_size xs ∧
    (bruteTrackRun (DStream.init L fs b) xs).max_index
        = xs.length % (DStream.init L fs b).max_window_size ∧
    (bruteTrackRun (DStream.init L fs b) xs).max_window_size
        = (DStream.init L fs b).max_window_size := by
  set W := (DStream.init L fs b).max_window_size with hWdef
  induction xs using List.reverseRecOn with
  | nil =>
    refine ⟨?_, by simp [bruteTrackRun]; rfl, by simp [bruteTrackRun]⟩
    show List.replicate W (0:ℚ) = ringList W []
    rw [ringList]
    simp
  | append_singleton vs v ih =>
    obtain ⟨ihbuf, ihidx, ihsize⟩ := ih
    have hrun : bruteTrackRun (DStream.init L fs b) (vs ++ [v])
        = bruteWindowUpdate (bruteTrackRun (DStream.init L fs b) vs) v := by
      unfold bruteTrackRun
      rw [List.foldl_append]
      rfl
    rw [hrun]
    unfold bruteWindowUpdate
    refine ⟨?_, ?_, by simpa using ihsize⟩
    · show (bruteTrackRun (DStream.init L fs b) vs).max_buffer.set
        (bruteTrackRun (DStream.init L fs b) vs).max_index v = ringList W (vs ++ [v])
      rw [ihbuf, ihidx, ringList_snoc W hW vs v]
    · show ((bruteTrackRun (DStream.init L fs b) vs).max_index + 1)
        % (bruteTrackRun (DStream.init L fs b) vs).max_window_size
        = (vs ++ [v]).length % W
      rw [ihidx, ihsize, List.length_append, List.length_singleton]
      exact mod_succ_shift vs.length W

/-! ### Rotation invariance of max, min and sum -/

lemma listMax_append (A B : List ℚ) (hA : A ≠ []) (hB : B ≠ []) :
    listMax (A ++ B) = max (listMax A) (listMax B) := by
  induction A with
  | nil => exact absurd rfl hA
  | cons x t ih =>
    cases t with
    | nil =>
      rw [show ([x] : List ℚ) ++ B = x :: B from rfl, listMax_cons x B hB]
      rfl
    | cons y u =>
      rw [List.cons_append, listMax_cons x ((y :: u) ++ B) (by simp),
        ih (by simp), listMax_cons x (y :: u) (by simp), max_assoc]

lemma listMin_append (A B : List ℚ) (hA : A ≠ []) (hB : B ≠ []) :
    listMin (A ++ B) = min (listMin A) (listMin B) := by
  induction A with
  | nil => exact absurd rfl hA
  | cons x t ih =>
    cases t with
    | nil =>
      rw [show ([x] : List ℚ) ++ B = x :: B from rfl, listMin_cons x B hB]
      rfl
    | cons y u =>
      rw [List.cons_append, listMin_cons x ((y :: u) ++ B) (by simp),
        ih (by simp), listMin_cons x (y :: u) (by simp), min_assoc]

lemma listMax_rotate (A B : List ℚ) : listMax (A ++ B) = listMax (B ++ A) := by
  by_cases hA : A = []
  · simp [hA]
  by_cases hB : B = []
  · simp [hB]
  rw [listMax_append A B hA hB, listMax_append B A hB hA, max_comm]

lemma listMin_rotate (A B : List ℚ) : listMin (A ++ B) = listMin (B ++ A) := by
  by_cases hA : A = []
  · simp [hA]
  by_cases hB : B = []
  · simp [hB]
  rw [listMin_append A B hA hB, listMin_append B A hB hA, min_comm]

/-- For at least `W` inserted values, the brute-force scan buffer is a
rotation of the true window, so its max, min, sum and length agree with the
window's. -/
lemma ringList_stats (W : Nat) (hW : 0 < W) (xs : List ℚ) (hk : W ≤ xs.length) :
    listMax (ringList W xs) = listMax (xs.drop (xs.length - W)) ∧
    listMin (ringList W xs) = listMin (xs.drop (xs.length - W)) ∧
    (ringList W xs).sum = (xs.drop (xs.length - W)).sum := by
  by_cases heq : xs.length ≤ W
  · have h0 : xs.length - W = 0 := by omega
    rw [ringList, if_pos heq, h0, show W - xs.length = 0 from by omega]
    simp
  · rw [ringList, if_neg heq]
    set win := xs.drop (xs.length - W) with hwin
    have hsplit : win.take (W - xs.length % W) ++ win.drop (W - xs.length % W) = win :=
      List.take_append_drop _ _
    refine ⟨?_, ?_, ?_⟩
    · rw [listMax_rotate, hsplit]
    · rw [listMin_rotate, hsplit]
    · rw [List.sum_append, add_comm, ← List.sum_append, hsplit]

/-- C3 (amended): on every prefix of length at least `W = round(2*fs)` of an
input sequence of at least `W` samples, the fast (monotonic-deque) tracker
and the brute-force (circular rescan) tracker produce identical window
maximum, minimum and mean — hence the polarity, adaptive threshold and
beat-candidate decision derived from those statistics agree for every sample
value.  (Prefixes shorter than `W` genuinely differ: the brute-force scan
still sees the zero padding of its buffer.) -/
theorem fast_brute_agree (L L' : Nat) (fs : ℚ) (vs : List ℚ) (k : Nat)
    (hW : 0 < (pyRound (2 * fs)).toNat)
    (hlen : (pyRound (2 * fs)).toNat ≤ vs.length)
    (hk : (pyRound (2 * fs)).toNat ≤ k)
    (hkv : k ≤ vs.length) :
    fastStats (fastTrackRun (DStream.init L fs true) (vs.take k))
      = bruteStats (bruteTrackRun (DStream.init L' fs false) (vs.take k)) ∧
    ∀ x : ℚ,
      polThreshCand (fastStats (fastTrackRun (DStream.init L fs true) (vs.take k))).1
          (fastStats (fastTrackRun (DStream.init L fs true) (vs.take k))).2.1
          (fastStats (fastTrackRun (DStream.init L fs true) (vs.take k))).2.2 x
        = polThreshCand
          (bruteStats (bruteTrackRun (DStream.init L' fs false) (vs.take k))).1
          (bruteStats (bruteTrackRun (DStream.init L' fs false) (vs.take k))).2.1
          (bruteStats (bruteTrackRun (DStream.init L' fs false) (vs.take k))).2.2 x := by
  set W := (pyRound (2 * fs)).toNat with hWdef
  have hWi : (DStream.init L fs true).max_window_size = W := rfl
  have hWi' : (DStream.init L' fs false).max_window_size = W := rfl
  set xs := vs.take k with hxs
  have hxslen : xs.length = k := by
    rw [hxs, List.length_take]
    omega
  obtain ⟨hw, hmax, hmin, hsum, _⟩ := fastTrackRun_state L fs true xs (by rw [hWi]; exact hW)
  rw [hWi] at hw
  obtain ⟨hbuf, _, _⟩ := bruteTrackRun_state L' fs false xs (by rw [hWi']; exact hW)
  rw [hWi'] at hbuf
  set win := xs.drop (xs.length - W) with hwindef
  have hwin_len : win.length = W := by
    rw [hwindef, List.length_drop]
    omega
  have hne : win ≠ [] := by
    intro hcon
    rw [hcon] at hwin_len
    simp at hwin_len
    omega
  have hF : fastStats (fastTrackRun (DStream.init L fs true) xs)
      = (listMax win, listMin win, win.sum / (W : ℚ)) := by
    unfold fastStats
    rw [hmax, hmin, hsum, hw]
    rw [head_maxDeque hne, head_minDeque hne, hwin_len]
  have hB : bruteStats (bruteTrackRun (DStream.init L' fs false) xs)
      = (listMax win, listMin win, win.sum / (W : ℚ)) := by
    unfold bruteStats
    obtain ⟨r1, r2, r3⟩ := ringList_stats W hW xs (by omega)
    rw [hbuf, r1, r2, r3, ringList_length W hW xs]
  exact ⟨hF.trans hB.symm, fun x => by rw [hF, hB]⟩

lemma listMin_replicate_zero : ∀ n : Nat, 0 < n → listMin (List.replicate n (0:ℚ)) = 0 := by
  intro n
  induction n with
  | zero => simp
  | succ m ih =>
    intro _
    by_cases hm : m = 0
    · subst hm
      simp [listMin]
    · rw [List.replicate_succ, listMin_cons 0 (List.replicate m 0) (by simpa using hm)]
      rw [ih (by omega)]
      simp

/-- C3 counterexample: with the deployed sampling rate `fs = 200` (window
`W = 400`), the sequence `5, 0, 0, ...` of length 400 ≥ `W` has a prefix
(the first sample alone) on which the two modes disagree: the fast tracker
reports window minimum 5, the brute-force scan reports 0 (its buffer is
still zero-padded), so the claim's "for every prefix" fails. -/
theorem fast_brute_differ_cex :
    (pyRound (2 * (200:ℚ))).toNat ≤ (5 :: List.replicate 399 (0:ℚ)).length ∧
    fastStats (fastTrackRun (DStream.init 10 200 true)
        ((5 :: List.replicate 399 (0:ℚ)).take 1))
      ≠ bruteStats (bruteTrackRun (DStream.init 10 200 false)
        ((5 :: List.replicate 399 (0:ℚ)).take 1)) := by
  have hW : (pyRound (2 * (200:ℚ))).toNat = 400 := by
    norm_num [pyRound]
    decide
  constructor
  · rw [hW]
    simp
  · have hWt : (DStream.init 10 200 true).max_window_size = 400 := by
      show (pyRound (2 * (200:ℚ))).toNat = 400
      exact hW
    have hWf : (DStream.init 10 200 false).max_window_size = 400 := by
      show (pyRound (2 * (200:ℚ))).toNat = 400
      exact hW
    have htake : (5 :: List.replicate 399 (0:ℚ)).take 1 = [5] := by
      simp
    rw [htake]
    -- fast side: one insertion into the empty window
    have hfast : fastStats (fastTrackRun (DStream.init 10 200 true) [5])
        = (5, 5, 5 / 1) := by
      have h0 : (DStream.init 10 200 true).max_window = [] := rfl
      have h0max : (DStream.init 10 200 true).max_window_max = [] := rfl
      have h0min : (DStream.init 10 200 true).max_window_min = [] := rfl
      have h0sum : (DStream.init 10 200 true).max_window_sum = 0 := rfl
      show fastStats (updateWindowStatsFast (DStream.init 10 200 true) 5) = (5, 5, 5 / 1)
      rw [updateFast_eval _ 5 (by rw [h0max, h0]; rfl) (by rw [h0min, h0]; rfl)]
      unfold fastStats
      simp only [h0, h0sum, hWt]
      norm_num [maxDeque, minDeque]
    -- brute side: one write into the zero buffer of length 400
    have hbuf : (DStream.init 10 200 false).max_buffer = List.replicate 400 0 := by
      show List.replicate (DStream.init 10 200 false).max_window_size (0:ℚ)
        = List.replicate 400 0
      rw [hWf]
    have hidx : (DStream.init 10 200 false).max_index = 0 := rfl
    have hbrute : (bruteTrackRun (DStream.init 10 200 false) [5]).max_buffer
        = 5 :: List.replicate 399 0 := by
      show ((DStream.init 10 200 false).max_buffer.set
        (DStream.init 10 200 false).max_index 5) = 5 :: List.replicate 399 0
      rw [hbuf, hidx]
      rw [show List.replicate 400 (0:ℚ) = 0 :: List.replicate 399 0 from rfl]
      rfl
    intro hcon
    rw [hfast] at hcon
    have hmin5 : (bruteStats (bruteTrackRun (DStream.init 10 200 false) [5])).2.1 = 0 := by
      unfold bruteStats
      rw [hbrute]
      show listMin (5 :: List.replicate 399 0) = 0
      rw [listMin_cons 5 (List.replicate 399 0) (by simp), listMin_replicate_zero 399 (by omega)]
      norm_num
    rw [← hcon] at hmin5
    norm_num at hmin5

/-- C3 witness: at `fs = 1` (so `W = 2`) the two modes agree on the full
prefix of `[1, 2]`. -/
theorem fast_brute_agree_witness :
    fastStats (fastTrackRun (DStream.init 10 1 true) ([(1:ℚ), 2].take 2))
      = bruteStats (bruteTrackRun (DStream.init 7 1 false) ([(1:ℚ), 2].take 2)) :=
  (fast_brute_agree 10 7 1 [1, 2] 2
    (by norm_num [pyRound, Int.toNat_ofNat]) (by norm_num [pyRound, Int.toNat_ofNat])
    (by norm_num [pyRound, Int.toNat_ofNat]) (by norm_num)).1

/-- C5 witness: the invariant at a concrete instance (`fs = 1`, window size
2, three insertions): the deque front is the window maximum. -/
theorem fast_tracker_invariant_witness :
    (fastTrackRun (DStream.init 10 1 true) ([3, 4] ++ [2])).max_window_max.headD 0
      = listMax ((fastTrackRun (DStream.init 10 1 true) ([3, 4] ++ [2])).max_window) :=
  (fast_tracker_invariant 10 1 true [3, 4] 2
    (by show 0 < (pyRound (2 * (1:ℚ))).toNat; norm_num [pyRound, Int.toNat_ofNat])).2.1

/-! ### Frame lemmas for the per-sample phases (beat detector, smoother) -/

lemma updateFast_frame (s : DStream) (v : ℚ) :
    (updateWindowStatsFast s v).last_r_peak_time = s.last_r_peak_time ∧
    (updateWindowStatsFast s v).buffer = s.buffer ∧
    (updateWindowStatsFast s v).sum_val = s.sum_val ∧
    (updateWindowStatsFast s v).buffer_index = s.buffer_index ∧
    (updateWindowStatsFast s v).window_size = s.window_size := by
  simp only [updateWindowStatsFast]
  split_ifs <;> exact ⟨rfl, rfl, rfl, rfl, rfl⟩

lemma amStats_frame (s : DStream) (v : ℚ) :
    (amStats s v).1.last_r_peak_time = s.last_r_peak_time ∧
    (amStats s v).1.buffer = s.buffer ∧
    (amStats s v).1.sum_val = s.sum_val ∧
    (amStats s v).1.buffer_index = s.buffer_index ∧
    (amStats s v).1.window_size = s.window_size := by
  unfold amStats
  split_ifs
  · exact updateFast_frame s v
  · exact ⟨rfl, rfl, rfl, rfl, rfl⟩

lemma amThreshold_frame (s : DStream) (v : ℚ) (st : ℚ × ℚ × ℚ) :
    (amThreshold s v st).1.last_r_peak_time = s.last_r_peak_time ∧
    (amThreshold s v st).1.buffer = s.buffer ∧
    (amThreshold s v st).1.sum_val = s.sum_val ∧
    (amThreshold s v st).1.buffer_index = s.buffer_index ∧
    (amThreshold s v st).1.window_size = s.window_size := ⟨rfl, rfl, rfl, rfl, rfl⟩

lemma amPeak_frame (s : DStream) (t : ℚ) (c : Bool) :
    (amPeak s t c).1.buffer = s.buffer ∧
    (amPeak s t c).1.sum_val = s.sum_val ∧
    (amPeak s t c).1.buffer_index = s.buffer_index ∧
    (amPeak s t c).1.window_size = s.window_size := by
  simp only [amPeak]
  split_ifs <;> exact ⟨rfl, rfl, rfl, rfl⟩

lemma amPeak_time (s : DStream) (t : ℚ) (c : Bool) :
    ((amPeak s t c).2 = true →
      250 < t - s.last_r_peak_time ∧ (amPeak s t c).1.last_r_peak_time = t) ∧
    ((amPeak s t c).2 = false → (amPeak s t c).1.last_r_peak_time = s.last_r_peak_time) := by
  simp only [amPeak]
  by_cases hc : c = true ∧ 250 < t - s.last_r_peak_time
  · rw [if_pos hc]
    refine ⟨fun _ => ⟨hc.2, ?_⟩, fun hfalse => ?_⟩
    · split_ifs <;> rfl
    · simp at hfalse
  · rw [if_neg hc]
    refine ⟨fun htrue => ?_, fun _ => rfl⟩
    simp at htrue

lemma amInhibit_frame (s : DStream) :
    (amInhibit s).last_r_peak_time = s.last_r_peak_time ∧
    (amInhibit s).buffer = s.buffer ∧
    (amInhibit s).sum_val = s.sum_val ∧
    (amInhibit s).buffer_index = s.buffer_index ∧
    (amInhibit s).window_size = s.window_size := by
  unfold amInhibit
  split_ifs <;> exact ⟨rfl, rfl, rfl, rfl, rfl⟩

lemma amOutput_time (s : DStream) (v : ℚ) :
    (amOutput s v).1.last_r_peak_time = s.last_r_peak_time := by
  unfold amOutput
  split_ifs <;> rfl

/-- The accepted flag of `_process_adaptive_mean` is raised exactly with the
250 ms test, and it sets the last-peak time to the sample's timestamp;
without acceptance that time is untouched. -/
lemma processAM_peak_time (s : DStream) (v t : ℚ) :
    ((processAdaptiveMean s v t).2.2 = true →
      250 < t - s.last_r_peak_time ∧ (processAdaptiveMean s v t).1.last_r_peak_time = t) ∧
    ((processAdaptiveMean s v t).2.2 = false →
      (processAdaptiveMean s v t).1.last_r_peak_time = s.last_r_peak_time) := by
  unfold processAdaptiveMean
  simp only []
  set a := amStats s v with ha
  set b := amThreshold a.1 v a.2 with hb
  set c := amPeak b.1 t b.2 with hc
  have hstats := (amStats_frame s v).1
  have hthr := (amThreshold_frame a.1 v a.2).1
  have hbt : b.1.last_r_peak_time = s.last_r_peak_time := by rw [hthr, hstats]
  have hpk := amPeak_time b.1 t b.2
  rw [hbt] at hpk
  have hinh := (amInhibit_frame c.1).1
  have hout := amOutput_time (amInhibit c.1) v
  constructor
  · intro htrue
    obtain ⟨h250, hset⟩ := hpk.1 htrue
    exact ⟨h250, by rw [hout, hinh, hset]⟩
  · intro hfalse
    rw [hout, hinh, hpk.2 hfalse]

/-- Core induction for C4: every accepted peak lies more than 250 ms after
the detector's current last-peak time, and the accepted peaks are pairwise
more than 250 ms apart. -/
lemma amRunEvents_sep : ∀ (inputs : List (ℚ × ℚ)) (s : DStream),
    (∀ e ∈ (amRunEvents s inputs).2, s.last_r_peak_time + 250 < e) ∧
    List.Pairwise (fun a b => 250 < b - a) (amRunEvents s inputs).2 := by
  intro inputs
  induction inputs with
  | nil => intro s; simp [amRunEvents]
  | cons p rest ih =>
    intro s
    obtain ⟨v, t⟩ := p
    have hpk := processAM_peak_time s v t
    obtain ⟨ihb, ihp⟩ := ih (processAdaptiveMean s v t).1
    by_cases hacc : (processAdaptiveMean s v t).2.2 = true
    · obtain ⟨h250, hset⟩ := hpk.1 hacc
      rw [hset] at ihb
      have hev : (amRunEvents s ((v, t) :: rest)).2
          = t :: (amRunEvents (processAdaptiveMean s v t).1 rest).2 := by
        simp only [amRunEvents, hacc]
        rfl
      rw [hev]
      constructor
      · intro e he
        rcases List.mem_cons.1 he with h1 | h1
        · rw [h1]
          linarith
        · have := ihb e h1
          linarith
      · exact List.Pairwise.cons (fun e he => by have := ihb e he; linarith) ihp
    · have hfalse : (processAdaptiveMean s v t).2.2 = false := by
        simpa using hacc
      have hkeep := hpk.2 hfalse
      rw [hkeep] at ihb
      have hev : (amRunEvents s ((v, t) :: rest)).2
          = (amRunEvents (processAdaptiveMean s v t).1 rest).2 := by
        simp only [amRunEvents, hfalse]
        rfl
      rw [hev]
      exact ⟨ihb, ihp⟩

/-- C4: for every input sequence of (sample, timestamp) pairs fed to the
beat detector of a fresh stream, any two accepted peaks are more than
250 ms apart: each later accepted timestamp exceeds each earlier one by
more than 250. -/
theorem beat_refractory_separation (L : Nat) (fs : ℚ) (b : Bool)
    (inputs : List (ℚ × ℚ)) :
    List.Pairwise (fun a b => 250 < b - a)
      ((amRunEvents (DStream.init L fs b) inputs).2) :=
  (amRunEvents_sep inputs (DStream.init L fs b)).2

lemma sum_set (l : List ℚ) (i : Nat) (v : ℚ) (h : i < l.length) :
    (l.set i v).sum = l.sum - l.getD i 0 + v := by
  induction l generalizing i with
  | nil => simp at h
  | cons x t ih =>
    cases i with
    | zero =>
      simp [List.getD]
      ring
    | succ j =>
      simp only [List.set, List.getD_cons_succ, List.sum_cons]
      rw [ih j (by simpa using h)]
      ring

lemma amStats_fd (s : DStream) (v : ℚ) :
    (amStats s v).1.filter_disable = s.filter_disable ∧
    (amStats s v).1.inhibit_counter = s.inhibit_counter := by
  unfold amStats
  split_ifs
  · simp only [updateWindowStatsFast]
    split_ifs <;> exact ⟨rfl, rfl⟩
  · exact ⟨rfl, rfl⟩

lemma amThreshold_fd (s : DStream) (v : ℚ) (st : ℚ × ℚ × ℚ) :
    (amThreshold s v st).1.filter_disable = s.filter_disable ∧
    (amThreshold s v st).1.inhibit_counter = s.inhibit_counter := ⟨rfl, rfl⟩

lemma amPeak_not_accepted (s : DStream) (t : ℚ) (c : Bool)
    (h : ¬(c = true ∧ 250 < t - s.last_r_peak_time)) : amPeak s t c = (s, false) := by
  simp only [amPeak]
  rw [if_neg h]

lemma amInhibit_fd_false (c : DStream) (h : c.filter_disable = false) :
    (amInhibit c).filter_disable = false := by
  unfold amInhibit
  rw [if_neg (show ¬(c.filter_disable = true ∧ 0 < c.inhibit_counter) from by
    intro hand
    rw [h] at hand
    simp at hand)]

lemma amOutput_fd (d : DStream) (v : ℚ) :
    (amOutput d v).1.filter_disable = d.filter_disable := by
  unfold amOutput
  split_ifs <;> rfl

/-- `amOutput`, evaluated in both modes: identity during refractory, the
moving-average update otherwise. -/
lemma amOutput_eval (d : DStream) (v : ℚ) :
    (d.filter_disable = true → amOutput d v = (d, v)) ∧
    (d.filter_disable = false →
      (amOutput d v).1.sum_val = d.sum_val - d.buffer.getD d.buffer_index 0 + v ∧
      (amOutput d v).1.buffer = d.buffer.set d.buffer_index v ∧
      (amOutput d v).1.buffer_index = (d.buffer_index + 1) % d.window_size ∧
      (amOutput d v).2 = (d.sum_val - d.buffer.getD d.buffer_index 0 + v) / (d.window_size : ℚ)) := by
  unfold amOutput
  constructor
  · intro h
    rw [if_pos h]
  · intro h
    rw [if_neg (by rw [h]; simp)]
    exact ⟨rfl, rfl, rfl, rfl⟩

/-- C7: while the detector leaves the sample in refractory
(`filter_disable` still set after the countdown update), the per-sample
output is the raw filtered sample and the moving-average smoother's state
(buffer contents, running sum, write cursor) is untouched; otherwise the
output is the smoother's running mean `sum/window_size` and the smoother
state is updated in place (the running sum staying equal to the buffer
sum). -/
theorem refractory_output_frame (s : DStream) (v t : ℚ)
    (hidx : s.buffer_index < s.buffer.length)
    (hsum : s.sum_val = s.buffer.sum) :
    ((processAdaptiveMean s v t).1.filter_disable = true →
      (processAdaptiveMean s v t).2.1 = v ∧
      (processAdaptiveMean s v t).1.buffer = s.buffer ∧
      (processAdaptiveMean s v t).1.sum_val = s.sum_val ∧
      (processAdaptiveMean s v t).1.buffer_index = s.buffer_index) ∧
    ((processAdaptiveMean s v t).1.filter_disable = false →
      (processAdaptiveMean s v t).2.1
          = (processAdaptiveMean s v t).1.sum_val / (s.window_size : ℚ) ∧
      (processAdaptiveMean s v t).1.sum_val
          = s.sum_val - s.buffer.getD s.buffer_index 0 + v ∧
      (processAdaptiveMean s v t).1.buffer = s.buffer.set s.buffer_index v ∧
      (processAdaptiveMean s v t).1.buffer_index = (s.buffer_index + 1) % s.window_size ∧
      (processAdaptiveMean s v t).1.sum_val = (processAdaptiveMean s v t).1.buffer.sum) := by
  obtain ⟨-, hb1, hs1, hi1, hw1⟩ := amStats_frame s v
  obtain ⟨-, hb2, hs2, hi2, hw2⟩ :=
    amThreshold_frame (amStats s v).1 v (amStats s v).2
  obtain ⟨hb3, hs3, hi3, hw3⟩ :=
    amPeak_frame (amThreshold (amStats s v).1 v (amStats s v).2).1 t
      (amThreshold (amStats s v).1 v (amStats s v).2).2
  obtain ⟨-, hb4, hs4, hi4, hw4⟩ :=
    amInhibit_frame (amPeak (amThreshold (amStats s v).1 v (amStats s v).2).1 t
      (amThreshold (amStats s v).1 v (amStats s v).2).2).1
  set d := amInhibit (amPeak (amThreshold (amStats s v).1 v (amStats s v).2).1 t
    (amThreshold (amStats s v).1 v (amStats s v).2).2).1 with hd
  have hdb : d.buffer = s.buffer := by rw [hd, hb4, hb3, hb2, hb1]
  have hds : d.sum_val = s.sum_val := by rw [hd, hs4, hs3, hs2, hs1]
  have hdi : d.buffer_index = s.buffer_index := by rw [hd, hi4, hi3, hi2, hi1]
  have hdw : d.window_size = s.window_size := by rw [hd, hw4, hw3, hw2, hw1]
  have hrw : processAdaptiveMean s v t
      = ((amOutput d v).1, (amOutput d v).2,
         (amPeak (amThreshold (amStats s v).1 v (amStats s v).2).1 t
           (amThreshold (amStats s v).1 v (amStats s v).2).2).2) := rfl
  have hout := amOutput_eval d v
  constructor
  · intro hfd
    rw [hrw] at hfd ⊢
    simp only [] at hfd ⊢
    have hdfd : d.filter_disable = true := by
      rw [← amOutput_fd d v]
      exact hfd
    rw [hout.1 hdfd]
    exact ⟨rfl, hdb, hds, hdi⟩
  · intro hfd
    rw [hrw] at hfd ⊢
    simp only [] at hfd ⊢
    have hdfd : d.filter_disable = false := by
      rw [← amOutput_fd d v]
      exact hfd
    obtain ⟨ho1, ho2, ho3, ho4⟩ := hout.2 hdfd
    simp only [hdb, hds, hdi, hdw] at ho1 ho2 ho3 ho4
    refine ⟨?_, ho1, ho2, ho3, ?_⟩
    · rw [ho4, ho1]
    · rw [ho1, ho2, sum_set s.buffer s.buffer_index v hidx, hsum]

/-- C7 witness: the first sample of a fresh stream is processed in the
NORMAL state; the output is the smoother mean and the running sum matches
the buffer sum. -/
theorem refractory_output_frame_witness :
    (processAdaptiveMean (DStream.init 2000 200 true) 1 0).1.filter_disable = false ∧
    (processAdaptiveMean (DStream.init 2000 200 true) 1 0).2.1
        = (processAdaptiveMean (DStream.init 2000 200 true) 1 0).1.sum_val
          / ((DStream.init 2000 200 true).window_size : ℚ) ∧
    (processAdaptiveMean (DStream.init 2000 200 true) 1 0).1.sum_val
        = (processAdaptiveMean (DStream.init 2000 200 true) 1 0).1.buffer.sum := by
  set s0 := DStream.init 2000 200 true with hs0
  have hwlen : s0.buffer.length = 40 := by
    rw [show s0.buffer = List.replicate s0.window_size (0:ℚ) from rfl, List.length_replicate]
    show (pyRound ((0.2:ℚ) * 200)).toNat = 40
    norm_num [pyRound]
    decide
  have hidx : s0.buffer_index < s0.buffer.length := by
    rw [show s0.buffer_index = 0 from rfl, hwlen]
    omega
  have hsum : s0.sum_val = s0.buffer.sum := by
    rw [show s0.sum_val = (0:ℚ) from rfl,
      show s0.buffer = List.replicate s0.window_size (0:ℚ) from rfl]
    simp
  have h := refractory_output_frame s0 1 0 hidx hsum
  have hlast : (amThreshold (amStats s0 1).1 1 (amStats s0 1).2).1.last_r_peak_time = 0 := by
    rw [(amThreshold_frame _ _ _).1, (amStats_frame _ _).1]
    rfl
  have hrej : (amPeak (amThreshold (amStats s0 1).1 1 (amStats s0 1).2).1 0
      (amThreshold (amStats s0 1).1 1 (amStats s0 1).2).2)
      = ((amThreshold (amStats s0 1).1 1 (amStats s0 1).2).1, false) := by
    apply amPeak_not_accepted
    rw [hlast]
    intro hand
    have := hand.2
    norm_num at this
  have hfd0 : (amThreshold (amStats s0 1).1 1 (amStats s0 1).2).1.filter_disable = false := by
    rw [(amThreshold_fd _ _ _).1, (amStats_fd _ _).1]
    rfl
  have hfd : (processAdaptiveMean s0 1 0).1.filter_disable = false := by
    show (amOutput (amInhibit (amPeak (amThreshold (amStats s0 1).1 1 (amStats s0 1).2).1 0
      (amThreshold (amStats s0 1).1 1 (amStats s0 1).2).2).1) 1).1.filter_disable = false
    rw [amOutput_fd]
    apply amInhibit_fd_false
    rw [hrej]
    exact hfd0
  obtain ⟨ho, hs, -, -, hinv⟩ := h.2 hfd
  exact ⟨hfd, ho, hinv⟩

/-! ### Ring buffer store: `_append_sample` and `last(n)` -/

lemma appendSample_fields (s : DStream) (v t : ℚ) :
    (appendSample s v t).samples = s.samples.set s.write_idx v ∧
    (appendSample s v t).timestamps = s.timestamps.set s.write_idx t ∧
    (appendSample s v t).write_idx = (s.write_idx + 1) % s.length ∧
    (appendSample s v t).filled = (if s.filled < s.length then s.filled + 1 else s.filled) ∧
    (appendSample s v t).length = s.length := by
  simp only [appendSample]
  split_ifs with h <;> exact ⟨rfl, rfl, rfl, rfl, rfl⟩

lemma ringList_nil (L : Nat) : ringList L [] = List.replicate L 0 := by
  rw [ringList]
  simp

/-- State of the ring buffer after appending the history `hs` to a fresh
stream of capacity `L`. -/
lemma appendRun_state (L : Nat) (fs : ℚ) (b : Bool) (hs : List (ℚ × ℚ)) (hL : 0 < L) :
    (appendRun (DStream.init L fs b) hs).samples = ringList L (hs.map Prod.fst) ∧
    (appendRun (DStream.init L fs b) hs).timestamps = ringList L (hs.map Prod.snd) ∧
    (appendRun (DStream.init L fs b) hs).write_idx = hs.length % L ∧
    (appendRun (DStream.init L fs b) hs).filled = min hs.length L ∧
    (appendRun (DStream.init L fs b) hs).length = L := by
  induction hs using List.reverseRecOn with
  | nil =>
    refine ⟨?_, ?_, ?_, ?_, by simp [appendRun]; rfl⟩
    · rw [show ((([] : List (ℚ × ℚ)).map Prod.fst)) = ([] : List ℚ) from rfl, ringList_nil]
      rfl
    · rw [show ((([] : List (ℚ × ℚ)).map Prod.snd)) = ([] : List ℚ) from rfl, ringList_nil]
      rfl
    · simp [appendRun]
      rfl
    · simp [appendRun]
      rfl
  | append_singleton vs p ih =>
    obtain ⟨v, t⟩ := p
    obtain ⟨ihs, iht, ihw, ihf, ihl⟩ := ih
    have hrun : appendRun (DStream.init L fs b) (vs ++ [(v, t)])
        = appendSample (appendRun (DStream.init L fs b) vs) v t := by
      unfold appendRun
      rw [List.foldl_append]
      rfl
    obtain ⟨f1, f2, f3, f4, f5⟩ :=
      appendSample_fields (appendRun (DStream.init L fs b) vs) v t
    rw [hrun]
    refine ⟨?_, ?_, ?_, ?_, ?_⟩
    · rw [f1, ihs, ihw]
      rw [show (vs ++ [(v, t)]).map Prod.fst = vs.map Prod.fst ++ [v] from by simp]
      rw [ringList_snoc L hL (vs.map Prod.fst) v]
      rw [List.length_map]
    · rw [f2, iht, ihw]
      rw [show (vs ++ [(v, t)]).map Prod.snd = vs.map Prod.snd ++ [t] from by simp]
      rw [ringList_snoc L hL (vs.map Prod.snd) t]
      rw [List.length_map]
    · rw [f3, ihw, ihl, List.length_append, List.length_singleton]
      exact mod_succ_shift vs.length L
    · rw [f4, ihf, ihl, List.length_append, List.length_singleton]
      split_ifs with h <;> omega
    · rw [f5, ihl]

/-- `ringList` restricted to a full buffer, in rotated-window form (the two
branches of `ringList` agree at `|A| = L`). -/
lemma ringList_full (L : Nat) (hL : 0 < L) (A : List ℚ) (hk : L ≤ A.length) :
    ringList L A = (A.drop (A.length - L)).drop (L - A.length % L)
      ++ (A.drop (A.length - L)).take (L - A.length % L) := by
  by_cases heq : A.length ≤ L
  · have h0 : A.length % L = 0 := by
      rw [show A.length = L from by omega]
      exact Nat.mod_self L
    rw [ringList, if_pos heq, h0]
    rw [show A.length - L = 0 from by omega, show L - A.length = 0 from by omega]
    simp only [Nat.sub_zero, List.drop_zero, List.replicate_zero, List.append_nil]
    rw [List.drop_eq_nil_of_le (by omega), List.take_of_length_le (by omega)]
    simp
  · rw [ringList, if_neg heq]

/-- Python's `(write_idx - n) % length` (nonnegative modulus) as a `Nat`. -/
lemma startVal (r m L : Nat) (hrL : r < L) (hmL : m ≤ L) :
    (((r : ℤ) - (m : ℤ)) % (L : ℤ)).toNat = if m ≤ r then r - m else r + L - m := by
  split_ifs with h
  · rw [Int.emod_eq_of_lt (by omega) (by omega)]
    omega
  · have h1 : ((r : ℤ) - m + L) % L = ((r : ℤ) - m) % L := by
      simp [Int.add_emod]
    rw [← h1, Int.emod_eq_of_lt (by omega) (by omega)]
    omega

lemma drop_append_left (X Y : List ℚ) (j : Nat) : (X ++ Y).drop (X.length + j) = Y.drop j := by
  rw [← List.drop_drop, List.drop_left]

/-- Contiguous read (`samples[start:end]`) of the most recent `m` values
when they do not wrap. -/
lemma ring_slice_contig (L : Nat) (hL : 0 < L) (A : List ℚ) (m : Nat)
    (hm1 : 1 ≤ m) (hmk : m ≤ A.length) (hmL : m ≤ L) (hmr : m ≤ A.length % L) :
    ((ringList L A).take (A.length % L)).drop (A.length % L - m)
      = A.drop (A.length - m) := by
  by_cases hkL : A.length < L
  · have hr : A.length % L = A.length := Nat.mod_eq_of_lt hkL
    rw [hr, ringList, if_pos (by omega), List.take_left' rfl]
  · push_neg at hkL
    have hr : A.length % L < L := Nat.mod_lt _ hL
    rw [ringList_full L hL A hkL]
    have hfirst : ((A.drop (A.length - L)).drop (L - A.length % L)).length = A.length % L := by
      simp [List.length_drop]
      omega
    rw [List.take_left' hfirst, List.drop_drop, List.drop_drop]
    rw [show A.length - L + (L - A.length % L + (A.length % L - m)) = A.length - m from by omega]

/-- Wrapped read (`samples[start:] + samples[:end]`) of the most recent `m`
values when they straddle the buffer end. -/
lemma ring_slice_wrap (L : Nat) (hL : 0 < L) (A : List ℚ) (m : Nat)
    (hm1 : 1 ≤ m) (hmk : m ≤ A.length) (hmL : m ≤ L) (hmr : A.length % L < m) :
    (ringList L A).drop (A.length % L + L - m) ++ (ringList L A).take (A.length % L)
      = A.drop (A.length - m) := by
  have hkL : L ≤ A.length := by
    by_contra hc
    push_neg at hc
    rw [Nat.mod_eq_of_lt hc] at hmr
    omega
  have hr : A.length % L < L := Nat.mod_lt _ hL
  rw [ringList_full L hL A hkL]
  have hfirst : ((A.drop (A.length - L)).drop (L - A.length % L)).length = A.length % L := by
    simp [List.length_drop]
    omega
  rw [List.take_left' hfirst]
  rw [show A.length % L + L - m
      = ((A.drop (A.length - L)).drop (L - A.length % L)).length + (L - m) from by
    rw [hfirst]; omega]
  rw [drop_append_left, List.drop_take]
  rw [show L - A.length % L - (L - m) = m - A.length % L from by omega]
  rw [show L - A.length % L = L - m + (m - A.length % L) from by omega, ← List.drop_drop]
  rw [List.take_append_drop, List.drop_drop]
  rw [show A.length - L + (L - m) = A.length - m from by omega]

/-- C8: for every history of appended (value, timestamp) pairs and every
`n > 0`, `last(n)` returns the most recent `min(n, filled)` pairs in
chronological order, wraparound included. -/
theorem ring_lastN (L : Nat) (fs : ℚ) (b : Bool) (hs : List (ℚ × ℚ)) (n : Nat)
    (hL : 0 < L) (hn : 0 < n) :
    lastN (appendRun (DStream.init L fs b) hs) n
      = ((hs.drop (hs.length - min n (min hs.length L))).map Prod.fst,
         (hs.drop (hs.length - min n (min hs.length L))).map Prod.snd) := by
  obtain ⟨hsam, hts, hwi, hfil, hlen⟩ := appendRun_state L fs b hs hL
  by_cases hnil : hs = []
  · subst hnil
    rw [lastN, if_pos (Or.inr (by rw [hfil]; simp))]
    simp
  · have hk1 : 1 ≤ hs.length := List.length_pos.2 hnil
    have hm1 : 1 ≤ min n (min hs.length L) := by omega
    have hA : (hs.map Prod.fst).length = hs.length := by simp
    have hB : (hs.map Prod.snd).length = hs.length := by simp
    rw [lastN, if_neg (by push_neg; exact ⟨by omega, by rw [hfil]; omega⟩)]
    simp only [hfil, hwi, hlen, hsam, hts]
    rw [startVal (hs.length % L) (min n (min hs.length L)) L (Nat.mod_lt _ hL) (by omega)]
    by_cases hmr : min n (min hs.length L) ≤ hs.length % L
    · rw [if_pos hmr,
        if_pos (show hs.length % L - min n (min hs.length L) < hs.length % L from by omega)]
      have s1 := ring_slice_contig L hL (hs.map Prod.fst) (min n (min hs.length L))
        hm1 (by rw [hA]; omega) (by omega) (by rw [hA]; exact hmr)
      have s2 := ring_slice_contig L hL (hs.map Prod.snd) (min n (min hs.length L))
        hm1 (by rw [hB]; omega) (by omega) (by rw [hB]; exact hmr)
      rw [hA] at s1
      rw [hB] at s2
      rw [s1, s2, Prod.mk.injEq]
      exact ⟨(List.map_drop _ _ _).symm, (List.map_drop _ _ _).symm⟩
    · push_neg at hmr
      rw [if_neg (show ¬ min n (min hs.length L) ≤ hs.length % L from by omega),
        if_neg (show ¬ (hs.length % L + L - min n (min hs.length L) < hs.length % L)
          from by omega)]
      have s1 := ring_slice_wrap L hL (hs.map Prod.fst) (min n (min hs.length L))
        hm1 (by rw [hA]; omega) (by omega) (by rw [hA]; exact hmr)
      have s2 := ring_slice_wrap L hL (hs.map Prod.snd) (min n (min hs.length L))
        hm1 (by rw [hB]; omega) (by omega) (by rw [hB]; exact hmr)
      rw [hA] at s1
      rw [hB] at s2
      rw [s1, s2, Prod.mk.injEq]
      exact ⟨(List.map_drop _ _ _).symm, (List.map_drop _ _ _).symm⟩

/-- C8 witness: capacity 3, five appended pairs, `last(3)` returns the most
recent three pairs in order, across the wraparound split. -/
theorem ring_lastN_witness :
    lastN (appendRun (DStream.init 3 200 true)
        [((1:ℚ), (10:ℚ)), (2, 20), (3, 30), (4, 40), (5, 50)]) 3
      = ([3, 4, 5], [30, 40, 50]) := by
  rw [ring_lastN 3 200 true [((1:ℚ), (10:ℚ)), (2, 20), (3, 30), (4, 40), (5, 50)] 3
    (by omega) (by omega)]
  rfl

/-! ## Web-server layer (`main.py`) -/

def PLOT_WINDOW : Nat := 800

def STREAM_LENGTH : Nat := 4000

def ADAPTIVE_MEAN_FAST : Bool := true

/-- The `ecg_delta` payload of `_build_delta_payload`. -/
structure DeltaPayload where
  t0 : ℤ
  dt : List ℤ
  y : List ℚ
  threshold : Option ℚ
deriving DecidableEq

/-- The `ecg_meta` dictionary (shape only; its values are snapshots of the
server fields). -/
structure MetaPayload where
  status : String
  last_count : Nat
  bpm : Option ℤ
  polarity : Option ℤ
  filters : Bool × Bool × Bool × Bool
  sampling_rate : Option ℚ

/-- The server-side mutable state of `ECGWebServer` that the reset handler
touches or preserves (transport/UI handles are out of scope). -/
structure Server where
  stream : DStream
  status : String
  t0 : Option ℚ
  last_count : Nat
  last_bpm : Option ℤ
  last_polarity : Option ℤ
  last_sampling_rate : Option ℚ
  filters : Bool × Bool × Bool × Bool
  last_payload : Option DeltaPayload
  last_meta : Option MetaPayload

/-- `ECGWebServer.__init__` (stream built with `length = STREAM_LENGTH`,
default `fs = 200`, `adaptive_fast = ADAPTIVE_MEAN_FAST`). -/
def Server.init : Server :=
  { stream := DStream.init STREAM_LENGTH 200 ADAPTIVE_MEAN_FAST
    status := "Not connected"
    t0 := none
    last_count := 0
    last_bpm := none
    last_polarity := none
    last_sampling_rate := none
    filters := (true, true, true, true)
    last_payload := none
    last_meta := none }

/-- `_handle_clear_buffer`: replace the stream with a freshly constructed
`DataStream` and clear `t0`, `last_payload`, `last_meta`. -/
def handleClearBuffer (sv : Server) : Server :=
  { sv with stream := DStream.init STREAM_LENGTH 200 ADAPTIVE_MEAN_FAST
            t0 := none
            last_payload := none
            last_meta := none }

/-! ### Environment frames: one `add_samples` call leaves a nonempty fast
window (used to exhibit that the reset does not preserve tracker state) -/

lemma iirRun_length (f : IIR) (xs : List ℚ) : (iirRun f xs).2.length = xs.length := by
  induction xs generalizing f with
  | nil => rfl
  | cons x t ih => simpa [iirRun] using ih _

lemma applyStage_length (e : Bool) (f : IIR) (xs : List ℚ) :
    (applyStage e f xs).2.length = xs.length := by
  unfold applyStage
  split_ifs
  · exact iirRun_length f xs
  · rfl

lemma updateFast_env (s : DStream) (v : ℚ) :
    (updateWindowStatsFast s v).am_enabled = s.am_enabled ∧
    (updateWindowStatsFast s v).adaptive_fast = s.adaptive_fast ∧
    (updateWindowStatsFast s v).max_window ≠ [] := by
  simp only [updateWindowStatsFast]
  split_ifs <;> exact ⟨rfl, rfl, by simp⟩

lemma amStats_fast (s : DStream) (v : ℚ) (h : s.adaptive_fast = true) :
    (amStats s v).1 = updateWindowStatsFast s v := by
  unfold amStats
  rw [if_pos h]

lemma amThreshold_env (s : DStream) (v : ℚ) (st : ℚ × ℚ × ℚ) :
    (amThreshold s v st).1.am_enabled = s.am_enabled ∧
    (amThreshold s v st).1.adaptive_fast = s.adaptive_fast ∧
    (amThreshold s v st).1.max_window = s.max_window := ⟨rfl, rfl, rfl⟩

lemma amPeak_env (s : DStream) (t : ℚ) (c : Bool) :
    (amPeak s t c).1.am_enabled = s.am_enabled ∧
    (amPeak s t c).1.adaptive_fast = s.adaptive_fast ∧
    (amPeak s t c).1.max_window = s.max_window := by
  simp only [amPeak]
  split_ifs <;> exact ⟨rfl, rfl, rfl⟩

lemma amInhibit_env (s : DStream) :
    (amInhibit s).am_enabled = s.am_enabled ∧
    (amInhibit s).adaptive_fast = s.adaptive_fast ∧
    (amInhibit s).max_window = s.max_window := by
  unfold amInhibit
  split_ifs <;> exact ⟨rfl, rfl, rfl⟩

lemma amOutput_env (s : DStream) (v : ℚ) :
    (amOutput s v).1.am_enabled = s.am_enabled ∧
    (amOutput s v).1.adaptive_fast = s.adaptive_fast ∧
    (amOutput s v).1.max_window = s.max_window := by
  unfold amOutput
  split_ifs <;> exact ⟨rfl, rfl, rfl⟩

lemma appendSample_env (s : DStream) (v t : ℚ) :
    (appendSample s v t).am_enabled = s.am_enabled ∧
    (appendSample s v t).adaptive_fast = s.adaptive_fast ∧
    (appendSample s v t).max_window = s.max_window := by
  simp only [appendSample]
  split_ifs <;> exact ⟨rfl, rfl, rfl⟩

lemma processAM_env (s : DStream) (v t : ℚ) (hfast : s.adaptive_fast = true) :
    (processAdaptiveMean s v t).1.am_enabled = s.am_enabled ∧
    (processAdaptiveMean s v t).1.adaptive_fast = s.adaptive_fast ∧
    (processAdaptiveMean s v t).1.max_window ≠ [] := by
  have hrw : (processAdaptiveMean s v t).1
      = (amOutput (amInhibit (amPeak (amThreshold (amStats s v).1 v (amStats s v).2).1 t
          (amThreshold (amStats s v).1 v (amStats s v).2).2).1) v).1 := rfl
  obtain ⟨u1, u2, u3⟩ := updateFast_env s v
  have hst := amStats_fast s v hfast
  obtain ⟨t1, t2, t3⟩ := amThreshold_env (amStats s v).1 v (amStats s v).2
  obtain ⟨p1, p2, p3⟩ := amPeak_env (amThreshold (amStats s v).1 v (amStats s v).2).1 t
    (amThreshold (amStats s v).1 v (amStats s v).2).2
  obtain ⟨i1, i2, i3⟩ := amInhibit_env (amPeak (amThreshold (amStats s v).1 v
    (amStats s v).2).1 t (amThreshold (amStats s v).1 v (amStats s v).2).2).1
  obtain ⟨o1, o2, o3⟩ := amOutput_env (amInhibit (amPeak (amThreshold (amStats s v).1 v
    (amStats s v).2).1 t (amThreshold (amStats s v).1 v (amStats s v).2).2).1) v
  refine ⟨?_, ?_, ?_⟩
  · rw [hrw, o1, i1, p1, t1, hst, u1]
  · rw [hrw, o2, i2, p2, t2, hst, u2]
  · rw [hrw, o3, i3, p3, t3, hst]
    exact u3

lemma addLoop_mw : ∀ (inputs : List (ℚ × ℚ)) (s : DStream),
    s.am_enabled = true → s.adaptive_fast = true →
    (s.max_window ≠ [] ∨ inputs ≠ []) → (addLoop s inputs).max_window ≠ [] := by
  intro inputs
  induction inputs with
  | nil =>
    intro s _ _ h
    rcases h with h | h
    · exact h
    · exact absurd rfl h
  | cons p rest ih =>
    intro s ham hfast _
    obtain ⟨v, t⟩ := p
    have hstep : addLoop s ((v, t) :: rest)
        = addLoop (appendSample (processAdaptiveMean s v t).1
            (processAdaptiveMean s v t).2.1 t) rest := by
      simp only [addLoop, ham]
      rfl
    obtain ⟨e1, e2, e3⟩ := processAM_env s v t hfast
    obtain ⟨a1, a2, a3⟩ := appendSample_env (processAdaptiveMean s v t).1
      (processAdaptiveMean s v t).2.1 t
    rw [hstep]
    apply ih
    · rw [a1, e1, ham]
    · rw [a2, e2, hfast]
    · left
      rw [a3]
      exact e3

/-- After `add_samples` with at least one sample (adaptive mean enabled,
fast mode), the fast window is nonempty — i.e. the tracker state genuinely
carries session data. -/
lemma addSamples_mw (s : DStream) (samples timestamps : List ℚ)
    (ham : s.am_enabled = true) (hfast : s.adaptive_fast = true)
    (hs : samples ≠ []) (hts : timestamps ≠ []) :
    (addSamples s samples timestamps).max_window ≠ [] := by
  simp only [addSamples]
  rw [if_neg hs]
  apply addLoop_mw
  · exact ham
  · exact hfast
  · right
    obtain ⟨t0, trest, hts'⟩ := List.exists_cons_of_ne_nil hts
    have hlen : ((applyStage s.hp_enabled s.hp_filter
        (applyStage s.tp_enabled s.tp_filter
          (applyStage s.no_enabled s.no_filter samples).2).2).2.map
        (fun v => if |v| < 0.001 then 0 else v)).length = samples.length := by
      rw [List.length_map, applyStage_length, applyStage_length, applyStage_length]
    have hfe : ((applyStage s.hp_enabled s.hp_filter
        (applyStage s.tp_enabled s.tp_filter
          (applyStage s.no_enabled s.no_filter samples).2).2).2.map
        (fun v => if |v| < 0.001 then 0 else v)) ≠ [] := by
      intro hcon
      rw [hcon] at hlen
      exact hs (List.length_eq_zero.mp hlen.symm)
    obtain ⟨y0, yrest, hy⟩ := List.exists_cons_of_ne_nil hfe
    rw [hy, hts']
    simp

/-- C6 (amended): the clear-buffer handler rebuilds the entire stream: the
ring buffer, the session timestamp, and also the filter, window-tracker and
beat-detector state are all reset to fresh-construction values; only the
server-level metadata (status, filter toggles, last BPM readouts) survives. -/
theorem clear_buffer_resets_stream (sv : Server) :
    (handleClearBuffer sv).stream = DStream.init STREAM_LENGTH 200 ADAPTIVE_MEAN_FAST ∧
    (handleClearBuffer sv).t0 = none ∧
    (handleClearBuffer sv).last_payload = none ∧
    (handleClearBuffer sv).last_meta = none ∧
    (handleClearBuffer sv).stream.hp_filter
      = (DStream.init STREAM_LENGTH 200 ADAPTIVE_MEAN_FAST).hp_filter ∧
    (handleClearBuffer sv).stream.max_window = [] ∧
    (handleClearBuffer sv).stream.last_r_peak_time = 0 ∧
    (handleClearBuffer sv).stream.filled = 0 ∧
    (handleClearBuffer sv).status = sv.status ∧
    (handleClearBuffer sv).filters = sv.filters ∧
    (handleClearBuffer sv).last_bpm = sv.last_bpm :=
  ⟨rfl, rfl, rfl, rfl, rfl, rfl, rfl, rfl, rfl, rfl, rfl⟩

/-- The server state after one polled frame (one sample, value 100 at
10 ms) has been processed into the stream. -/
def serverAfterOneFrame : Server :=
  { Server.init with stream := addSamples Server.init.stream [100] [10], last_count := 1 }

/-- C6 counterexample: the claim says the reset leaves the window-tracker
state from the prior session intact, but after one processed frame the
tracker window is nonempty, while after `_handle_clear_buffer` it is empty —
the reset replaced it (and all other stream state) with a fresh stream. -/
theorem clear_buffer_not_intact_cex :
    serverAfterOneFrame.stream.max_window ≠ [] ∧
    (handleClearBuffer serverAfterOneFrame).stream.max_window = [] ∧
    (handleClearBuffer serverAfterOneFrame).stream.max_window
      ≠ serverAfterOneFrame.stream.max_window := by
  have h1 : serverAfterOneFrame.stream.max_window ≠ [] := by
    apply addSamples_mw
    · rfl
    · rfl
    · simp
    · simp
  exact ⟨h1, rfl, fun hcon => h1 hcon.symm⟩

/-! ### Incremental (delta) payloads -/

/-- The clamp of the `_build_delta_payload` loop body
(`if dt < 0: dt = 0; elif dt > 255: dt = 255`). -/
def clampByte (d : ℤ) : ℤ :=
  if d < 0 then 0 else if 255 < d then 255 else d

/-- The delta loop of `_build_delta_payload`: each step emits
`clamp(int(round(t - prev_t)))` and updates `prev_t = int(round(t))`. -/
def deltaList : ℤ → List ℚ → List ℤ
  | _, [] => []
  | prev, t :: rest => clampByte (pyRound (t - (prev : ℚ))) :: deltaList (pyRound t) rest

/-- `_build_delta_payload`: `None` for an empty sample list, otherwise the
base timestamp `int(round(timestamps[0]))`, a delta list starting with 0,
the samples, and the threshold.  (The code indexes `timestamps[i]` for
`i < count`; every call site passes lists of equal length, and the
embedding reads the same in-range prefix via `take`.) -/
def buildDeltaPayload (samples timestamps : List ℚ) (threshold : Option ℚ) :
    Option DeltaPayload :=
  if samples.length = 0 then none
  else
    some { t0 := pyRound (timestamps.headD 0)
           dt := 0 :: deltaList (pyRound (timestamps.headD 0))
                    ((timestamps.take samples.length).drop 1)
           y := samples
           threshold := threshold }

lemma clampByte_bounds (d : ℤ) : 0 ≤ clampByte d ∧ clampByte d ≤ 255 := by
  unfold clampByte
  split_ifs <;> omega

lemma deltaList_mem : ∀ (l : List ℚ) (prev d : ℤ),
    d ∈ deltaList prev l → 0 ≤ d ∧ d ≤ 255 := by
  intro l
  induction l with
  | nil =>
    intro prev d h
    simp [deltaList] at h
  | cons t rest ih =>
    intro prev d h
    simp only [deltaList, List.mem_cons] at h
    rcases h with h | h
    · rw [h]
      exact clampByte_bounds _
    · exact ih _ _ h

lemma getD_dropQ (l : List ℚ) (m n : Nat) (d : ℚ) :
    (l.drop m).getD n d = l.getD (m + n) d := by
  simp [List.getD, List.getElem?_drop]

lemma deltaList_length : ∀ (l : List ℚ) (prev : ℤ),
    (deltaList prev l).length = l.length := by
  intro l
  induction l with
  | nil => intro prev; rfl
  | cons t rest ih =>
    intro prev
    simp only [deltaList, List.length_cons, ih]

lemma deltaList_getD : ∀ (l : List ℚ) (prev : ℤ) (j : Nat), j < l.length →
    (deltaList prev l).getD j 0
      = clampByte (pyRound (l.getD j 0 -
          (((if j = 0 then prev else pyRound (l.getD (j - 1) 0)) : ℤ) : ℚ))) := by
  intro l
  induction l with
  | nil =>
    intro prev j h
    simp at h
  | cons t rest ih =>
    intro prev j h
    match j with
    | 0 => simp [deltaList, List.getD]
    | Nat.succ j' =>
      have hj' : j' < rest.length := by simpa using Nat.lt_of_succ_lt_succ h
      have hstep := ih (pyRound t) j' hj'
      simp only [deltaList, List.getD_cons_succ]
      rw [hstep]
      have hne : ¬ (j' + 1 = 0) := by omega
      rw [if_neg hne]
      by_cases hj0 : j' = 0
      · subst hj0
        simp [List.getD]
      · obtain ⟨k, hk⟩ : ∃ k, j' = k + 1 := ⟨j' - 1, by omega⟩
        subst hk
        rw [if_neg hj0]
        simp [List.getD_cons_succ]

/-- C9: in every delta payload the code emits, the first delta is 0, every
delta lies in [0, 255], and each later delta is exactly the clamp (negative
raw differences to 0, raw differences above 255 to 255) of the rounded
difference between the current timestamp and the rounded previous
timestamp. -/
theorem delta_payload_clamped (samples timestamps : List ℚ) (thr : Option ℚ)
    (p : DeltaPayload) (h : buildDeltaPayload samples timestamps thr = some p) :
    p.dt.headD 99 = 0 ∧
    (∀ d ∈ p.dt, 0 ≤ d ∧ d ≤ 255) ∧
    (∀ i, 1 ≤ i → i < p.dt.length →
      p.dt.getD i 0
        = clampByte (pyRound ((timestamps.take samples.length).getD i 0 -
            ((pyRound ((timestamps.take samples.length).getD (i - 1) 0) : ℤ) : ℚ)))) := by
  unfold buildDeltaPayload at h
  by_cases hc : samples.length = 0
  · rw [if_pos hc] at h
    exact absurd h (by simp)
  · rw [if_neg hc] at h
    obtain rfl : p = _ := (Option.some.inj h).symm
    refine ⟨rfl, ?_, ?_⟩
    · intro d hd
      simp only [List.mem_cons] at hd
      rcases hd with hd | hd
      · rw [hd]
        exact ⟨le_refl 0, by norm_num⟩
      · exact deltaList_mem _ _ _ hd
    · intro i hi hlen
      obtain ⟨j, rfl⟩ : ∃ j, i = j + 1 := ⟨i - 1, by omega⟩
      have hj : j < ((timestamps.take samples.length).drop 1).length := by
        have h3 : j + 1 < (deltaList (pyRound (timestamps.headD 0))
            ((timestamps.take samples.length).drop 1)).length + 1 := hlen
        rw [deltaList_length] at h3
        omega
      have hform := deltaList_getD ((timestamps.take samples.length).drop 1)
        (pyRound (timestamps.headD 0)) j hj
      show (deltaList (pyRound (timestamps.headD 0))
          ((timestamps.take samples.length).drop 1)).getD j 0 = _
      rw [hform, getD_dropQ]
      by_cases hj0 : j = 0
      · subst hj0
        have hh : timestamps.headD 0 = (timestamps.take samples.length).getD 0 0 := by
          cases timestamps with
          | nil => simp
          | cons a l =>
            obtain ⟨c, hcc⟩ : ∃ c, samples.length = c + 1 :=
              ⟨samples.length - 1, by omega⟩
            rw [hcc]
            simp [List.getD]
        rw [if_pos rfl, hh]
      · rw [if_neg hj0, getD_dropQ]
        obtain ⟨k, rfl⟩ : ∃ k, j = k + 1 := ⟨j - 1, by omega⟩
        have e1 : 1 + (k + 1) = k + 1 + 1 := by omega
        have e2 : 1 + (k + 1 - 1) = k + 1 + 1 - 1 := by omega
        rw [e1, e2]

/-- Witness: samples `[1, 2]`, timestamps `[0, 300]` give the payload with
`t0 = 0` and deltas `[0, 255]` (the raw difference 300 is clamped to 255),
and the theorem applies to it. -/
theorem delta_payload_clamped_witness :
    buildDeltaPayload [(1 : ℚ), 2] [0, 300] none
        = some { t0 := 0, dt := [0, 255], y := [1, 2], threshold := none } ∧
    (0 ≤ (255 : ℤ) ∧ (255 : ℤ) ≤ 255) ∧ ([0, 255] : List ℤ).headD 99 = 0 := by
  have h : buildDeltaPayload [(1 : ℚ), 2] [0, 300] none
      = some { t0 := 0, dt := [0, 255], y := [1, 2], threshold := none } := by
    unfold buildDeltaPayload deltaList
    norm_num [pyRound, clampByte]
    rfl
  have hthm := delta_payload_clamped [(1 : ℚ), 2] [0, 300] none _ h
  exact ⟨h, hthm.2.1 255 (by norm_num), hthm.1⟩

end ECG
